import Mathlib

/-!
Verification of the tool-call guard in `.opencode/plugin/lib/scout-checker.cjs`
and the host-facing hook `scout-block.cjs` (embedded at the end of
`docs/security-configuration.md`).

Commands are modelled as `List Char` (JS strings).  Each JS regular expression
of the source is rendered as an executable Lean function; a comment at each
definition records the regex and why the rendering is equivalent (the regexes
involved are deterministic up to bounded, token-aligned backtracking, which is
rendered as explicit disjunction).

The collaborator modules `scout-block/pattern-matcher.cjs`,
`scout-block/path-extractor.cjs` and `scout-block/broad-pattern-detector.cjs`
are imported by the facade but are not part of the repository snapshot; they
are modelled from the spec (each such definition carries a
`Modelled from the spec:` doc comment).
-/

set_option maxRecDepth 8000

/-! ### Character classes (JS regex semantics) -/

/-- JS `\s` (whitespace class, the members relevant to command strings). -/
def isSpaceJS (c : Char) : Bool :=
  c = ' ' || c = '\t' || c = '\n' || c = '\r' ||
  c = '\x0b' || c = '\x0c' || c = ' ' || c = ' ' || c = ' ' || c = '﻿'

/-- JS `\w` = `[A-Za-z0-9_]`. -/
def isWordJS (c : Char) : Bool :=
  ('a' ≤ c && c ≤ 'z') || ('A' ≤ c && c ≤ 'Z') || ('0' ≤ c && c ≤ '9') || c = '_'

/-- JS `[\w.]` (word character or dot). -/
def isWordDotJS (c : Char) : Bool :=
  isWordJS c || c = '.'

/-- JS line terminators: the characters `.` does not match (no `s` flag). -/
def isLineTerm (c : Char) : Bool :=
  c = '\n' || c = '\r' || c = ' ' || c = ' '

/-- JS `String.prototype.trim` over our character model. -/
def trimJS (l : List Char) : List Char :=
  ((l.dropWhile isSpaceJS).reverse.dropWhile isSpaceJS).reverse

/-- Drop a trailing whitespace run (used by the split rendering). -/
def dropTrailWs (l : List Char) : List Char :=
  (l.reverse.dropWhile isSpaceJS).reverse

/-! ### `stripCommandPrefix` (scout-checker.cjs lines 49-59)

```js
let stripped = command.trim();
stripped = stripped.replace(/^(\w+=\S+\s+)+/, '');
stripped = stripped.replace(/^(sudo|env|nice|nohup|time|timeout)\s+/, '');
stripped = stripped.replace(/^(\w+=\S+\s+)+/, '');
return stripped.trim();
```
-/

/-- One iteration of `^(\w+=\S+\s+)+`: a maximal `\w` run (must be nonempty),
a literal `=`, a maximal `\S` run (nonempty), a maximal `\s` run (nonempty).
Each greedy sub-match is forced (the classes are complementary), so the JS
match is deterministic. Returns the remainder after the whitespace run. -/
def stripEnvOnce (l : List Char) : Option (List Char) :=
  let w := l.takeWhile isWordJS
  let r1 := l.dropWhile isWordJS
  if w.isEmpty then none else
  match r1 with
  | '=' :: r2 =>
    let v := r2.takeWhile (fun c => !isSpaceJS c)
    let r3 := r2.dropWhile (fun c => !isSpaceJS c)
    if v.isEmpty then none
    else if (r3.takeWhile isSpaceJS).isEmpty then none
    else some (r3.dropWhile isSpaceJS)
  | _ => none

/-- Iterate `stripEnvOnce` to exhaustion (the `+` of the regex); fuel-based so
that the definition is kernel-computable.  One iteration consumes at least
four characters, so `l.length + 1` fuel is always enough. -/
def stripEnvLoopF : Nat → List Char → List Char
  | 0, l => l
  | f + 1, l =>
    match stripEnvOnce l with
    | none => l
    | some r => stripEnvLoopF f r

/-- `replace(/^(\w+=\S+\s+)+/, '')`. -/
def stripEnvLoop (l : List Char) : List Char :=
  stripEnvLoopF (l.length + 1) l

/-- The wrapper words of `^(sudo|env|nice|nohup|time|timeout)\s+`, in source
order (JS alternation is ordered; since a failing alternative never consumes,
trying them in order and keeping the first whose trailing `\s+` also matches
is exactly the regex's backtracking behaviour, e.g. `time` then `timeout`). -/
def wrapperWords : List (List Char) :=
  ["sudo".toList, "env".toList, "nice".toList, "nohup".toList, "time".toList, "timeout".toList]

/-- `replace(/^(sudo|env|nice|nohup|time|timeout)\s+/, '')`, returning `none`
when the regex does not match. -/
def stripWrapperOnce (l : List Char) : Option (List Char) :=
  wrapperWords.findSome? fun w =>
    if w.isPrefixOf l then
      match l.drop w.length with
      | c :: r => if isSpaceJS c then some ((c :: r).dropWhile isSpaceJS) else none
      | [] => none
    else none

/-- `stripCommandPrefix` of scout-checker.cjs.  (The JS falsy/type guard
returns non-strings unchanged; our model carries strings only, and on the
empty string every stage below is the identity, matching the guard.) -/
def stripCommandPrefix (l : List Char) : List Char :=
  let s1 := trimJS l
  let s2 := stripEnvLoop s1
  let s3 := match stripWrapperOnce s2 with
            | some r => r
            | none => s2
  let s4 := stripEnvLoop s3
  trimJS s4

example : stripCommandPrefix ("NODE_ENV=production npm run build".toList) = "npm run build".toList := by decide
example : stripCommandPrefix ("sudo env VAR=x cmd".toList) = "env VAR=x cmd".toList := by decide
example : stripCommandPrefix ("env VAR=x cmd".toList) = "cmd".toList := by decide
example : stripCommandPrefix ("sudo sudo ls".toList) = "sudo ls".toList := by decide
example : stripCommandPrefix ("timeout 5 ls".toList) = "5 ls".toList := by decide

/-! ### The allow-grammar patterns (scout-checker.cjs lines 24-37, 66-129) -/

/-- Package managers of `BUILD_COMMAND_PATTERN`:
`^(npm|pnpm|yarn|bun)\s+...` (no two are prefixes of one another, so the
ordered alternation is a plain "any of"). -/
def pmWords : List (List Char) :=
  ["npm".toList, "pnpm".toList, "yarn".toList, "bun".toList]

/-- Safe verbs of `BUILD_COMMAND_PATTERN` (matched as literal text, with no
end anchor or word boundary after them). -/
def verbWords : List (List Char) :=
  ["build".toList, "test".toList, "lint".toList, "dev".toList, "start".toList,
   "install".toList, "ci".toList, "add".toList, "remove".toList, "update".toList,
   "publish".toList, "pack".toList, "init".toList, "create".toList, "exec".toList]

/-- Does one of the safe verbs occur literally at the head of `l`? -/
def startsWithVerb (l : List Char) : Bool :=
  verbWords.any (fun v => v.isPrefixOf l)

/-- The suffix of `BUILD_COMMAND_PATTERN` after the package manager and its
whitespace: `([^\s]+\s+)*(run\s+)?(build|test|...)`.

Rendering: the star's iterations are forced to be complete whitespace-
delimited tokens (each `[^\s]+` is maximal, since shortening it would put a
non-space where `\s+` must match, and each `\s+` is maximal since the next
iteration or the verb begins with a non-space).  `(run\s+)?` succeeds exactly
when the token at the boundary is the complete token `run`, which the star
could equally consume, so the whole tail matches iff some token boundary
(including boundary zero) starts with a verb literal.  `buildTailF` walks the
boundaries; one step consumes at least two characters, so `l.length + 1` fuel
always suffices. -/
def buildTailF : Nat → List Char → Bool
  | 0, l => startsWithVerb l
  | f + 1, l =>
    startsWithVerb l ||
    (let t := l.takeWhile (fun c => !isSpaceJS c)
     let r := l.dropWhile (fun c => !isSpaceJS c)
     !t.isEmpty && !(r.takeWhile isSpaceJS).isEmpty && buildTailF f (r.dropWhile isSpaceJS))

/-- `BUILD_COMMAND_PATTERN.test(l)`:
`/^(npm|pnpm|yarn|bun)\s+([^\s]+\s+)*(run\s+)?(build|test|lint|dev|start|install|ci|add|remove|update|publish|pack|init|create|exec)/`.
The `\s+` after the package manager is forced-maximal (what follows starts
with a non-space). -/
def buildTest (l : List Char) : Bool :=
  pmWords.any fun pm =>
    pm.isPrefixOf l &&
    (let r := l.drop pm.length
     !(r.takeWhile isSpaceJS).isEmpty && buildTailF (l.length + 1) (r.dropWhile isSpaceJS))

/-- The tool binaries of `TOOL_COMMAND_PATTERN`, in source order.  The regex
atom `python3?` is prefix-subsumed by `python` (the pattern has no trailing
boundary), so the single word `python` renders it. -/
def toolWords : List (List Char) :=
  ["npx".toList, "pnpx".toList, "bunx".toList, "tsc".toList, "esbuild".toList,
   "vite".toList, "webpack".toList, "rollup".toList, "turbo".toList, "nx".toList,
   "jest".toList, "vitest".toList, "mocha".toList, "eslint".toList, "prettier".toList,
   "go".toList, "cargo".toList, "make".toList, "mvn".toList, "mvnw".toList,
   "gradle".toList, "gradlew".toList, "dotnet".toList, "docker".toList, "podman".toList,
   "kubectl".toList, "helm".toList, "terraform".toList, "ansible".toList, "bazel".toList,
   "cmake".toList, "sbt".toList, "flutter".toList, "swift".toList, "ant".toList,
   "ninja".toList, "meson".toList, "python".toList, "pip".toList, "uv".toList,
   "deno".toList, "bundle".toList, "rake".toList, "gem".toList, "php".toList,
   "composer".toList, "ruby".toList, "mix".toList, "elixir".toList]

/-- `TOOL_COMMAND_PATTERN.test(l)`: `/^(\.\/)?(npx|pnpx|...|elixir)/`.
No word boundary follows the alternation, so this is a pure prefix test,
optionally after a literal `./` (no alternative begins with `.`, so the
optional group is exclusive with matching at position 0). -/
def toolTest (l : List Char) : Bool :=
  toolWords.any (fun w => w.isPrefixOf l) ||
  (match l with
   | '.' :: '/' :: r => toolWords.any (fun w => w.isPrefixOf r)
   | _ => false)

/-- `isBuildCommand` (lines 66-70): trims, then tests the two patterns. -/
def isBuildCommand (l : List Char) : Bool :=
  buildTest (trimJS l) || toolTest (trimJS l)

/-- Does `\.?venv[\/\\](bin|Scripts)[\/\\]` match at the head of `l`?
The optional `\.?` is greedy but a failure after consuming `.` backtracks to
not consuming it, and `venv` cannot start with `.`, so: skip one leading dot
if present, then require `venv`, a separator, `bin` or `Scripts`, and a
separator. -/
def venvAt (l : List Char) : Bool :=
  let l1 := match l with
            | '.' :: r => r
            | _ => l
  ("venv".toList).isPrefixOf l1 &&
  (match l1.drop 4 with
   | c :: r2 =>
     (c = '/' || c = '\\') &&
     ((("bin".toList).isPrefixOf r2 &&
        (match r2.drop 3 with
         | d :: _ => d = '/' || d = '\\'
         | [] => false)) ||
      (("Scripts".toList).isPrefixOf r2 &&
        (match r2.drop 7 with
         | d :: _ => d = '/' || d = '\\'
         | [] => false)))
   | [] => false)

/-- Scan for `VENV_EXECUTABLE_PATTERN = /(^|[\/\\])\.?venv[\/\\](bin|Scripts)[\/\\]/`:
an unanchored search where the occurrence must sit at the string start or
just after a path separator.  `ok` records whether the current position
qualifies. -/
def venvScan (l : List Char) (ok : Bool) : Bool :=
  (ok && venvAt l) ||
  (match l with
   | c :: t => venvScan t (c = '/' || c = '\\')
   | [] => false)

/-- `isVenvExecutable` (lines 105-108): tests the pattern with no trim. -/
def isVenvExecutable (l : List Char) : Bool :=
  venvScan l true

/-- The literal `-m\s+venv\s+` part of the first `VENV_CREATION_PATTERN`
alternative. -/
def mVenvHead (l : List Char) : Bool :=
  ("-m".toList).isPrefixOf l &&
  (let r := l.drop 2
   !(r.takeWhile isSpaceJS).isEmpty &&
   (let r2 := r.dropWhile isSpaceJS
    ("venv".toList).isPrefixOf r2 &&
    !((r2.drop 4).takeWhile isSpaceJS).isEmpty))

/-- The flag/`-m venv` tail of the first `VENV_CREATION_PATTERN` alternative:
`(-[\w.]+\s+)*-m\s+venv\s+` after the interpreter token.  A star iteration is
a complete token `-X...` (dash then a nonempty, maximal `[\w.]` run, then
forced-maximal whitespace); the regex's backtracking over how many iterations
the star takes is rendered as the disjunction at each boundary.  One
iteration consumes at least three characters, so length-based fuel suffices. -/
def venvTailF : Nat → List Char → Bool
  | 0, _ => false
  | f + 1, l =>
    -- `-m\s+venv\s+` here
    mVenvHead l ||
    -- or one `-[\w.]+\s+` flag token, then recurse
    (match l with
     | '-' :: r =>
       (let t := r.takeWhile isWordDotJS
        let r1 := r.dropWhile isWordDotJS
        !t.isEmpty && !(r1.takeWhile isSpaceJS).isEmpty && venvTailF f (r1.dropWhile isSpaceJS))
     | _ => false)

/-- The `venv(\s|$)` part of the second `VENV_CREATION_PATTERN`
alternative. -/
def uvVenvHead (l : List Char) : Bool :=
  ("venv".toList).isPrefixOf l &&
  (match l.drop 4 with
   | [] => true
   | c :: _ => isSpaceJS c)

/-- `isVenvCreationCommand` (lines 115-118): trims, then tests
`VENV_CREATION_PATTERN =
/^(python3?|py)\s+(-[\w.]+\s+)*-m\s+venv\s+|^uv\s+venv(\s|$)|^virtualenv\s+/`.
`(python3?|py)\s+` succeeds exactly when `python3`, `python` or `py` is a
literal prefix followed by whitespace (greedy `3?` backtracks). -/
def isVenvCreationCommand (l : List Char) : Bool :=
  let t := trimJS l
  -- alternative 1: ^(python3?|py)\s+(-[\w.]+\s+)*-m\s+venv\s+
  ((["python3".toList, "python".toList, "py".toList]).any fun w =>
    w.isPrefixOf t &&
    (let r := t.drop w.length
     !(r.takeWhile isSpaceJS).isEmpty && venvTailF (t.length + 1) (r.dropWhile isSpaceJS))) ||
  -- alternative 2: ^uv\s+venv(\s|$)
  (("uv".toList).isPrefixOf t &&
   (let r := t.drop 2
    !(r.takeWhile isSpaceJS).isEmpty && uvVenvHead (r.dropWhile isSpaceJS))) ||
  -- alternative 3: ^virtualenv\s+
  (("virtualenv".toList).isPrefixOf t &&
   !((t.drop 10).takeWhile isSpaceJS).isEmpty)

/-- `isAllowedCommand` (lines 126-129). -/
def isAllowedCommand (l : List Char) : Bool :=
  let stripped := stripCommandPrefix l
  isBuildCommand stripped || isVenvExecutable stripped || isVenvCreationCommand stripped

example : isAllowedCommand ("npm run build".toList) = true := by decide
example : isAllowedCommand ("npm test".toList) = true := by decide
example : isAllowedCommand ("pnpm --filter web run build".toList) = true := by decide
example : isAllowedCommand ("cat ../../etc/secrets".toList) = false := by decide
example : isAllowedCommand ("npm circus".toList) = true := by decide
example : isAllowedCommand ("goat simulator".toList) = true := by decide
example : isAllowedCommand (".venv/bin/pytest".toList) = true := by decide
example : isAllowedCommand ("python -m venv .venv".toList) = true := by decide
example : isVenvCreationCommand ("python -m venv".toList) = false := by decide
example : isAllowedCommand ("python -m venv".toList) = true := by decide
example : isAllowedCommand ("uv venv".toList) = true := by decide
example : isAllowedCommand ("virtualenv x".toList) = true := by decide
example : isAllowedCommand ("rm -rf /".toList) = false := by decide
example : isAllowedCommand ("npm".toList) = false := by decide
example : isAllowedCommand ("./tsc --watch".toList) = true := by decide
example : isVenvCreationCommand ("python -3.11 -m venv env".toList) = true := by decide
example : isVenvCreationCommand ("python -m -m venv env".toList) = true := by decide

/-! ### `splitCompoundCommand` (scout-checker.cjs lines 81-84)

```js
return command.split(/\s*(?:&&|\|\||;)\s*/).filter(cmd => cmd && cmd.trim().length > 0);
```

A separator match is: a (possibly empty) whitespace run, one of the operators
`&&`, `||`, `;`, and a (possibly empty) whitespace run.  Both `\s*` are
forced (the operators' characters are non-space), so the leftmost separator
match sits around the leftmost operator occurrence, extended through the
contiguous whitespace on each side.  `split` therefore produces, between
matches, the text before the operator with its trailing whitespace run
removed, and resumes after the operator's trailing whitespace run. -/

/-- Operator at the head of the list: `&&` and `||` have length 2, `;` has
length 1. -/
def opLen : List Char → Option Nat
  | [] => none
  | c :: t =>
    if c = '&' && t.head? = some '&' then some 2
    else if c = '|' && t.head? = some '|' then some 2
    else if c = ';' then some 1
    else none

/-- Find the leftmost operator.  Returns `(before, after)` where `before` is
the raw text preceding the operator (trailing whitespace not yet removed) and
`after` is the remainder past the operator and its following whitespace run. -/
def splitOnce : List Char → Option (List Char × List Char)
  | [] => none
  | c :: t =>
    match opLen (c :: t), splitOnce t with
    | some n, _ => some ([], ((c :: t).drop n).dropWhile isSpaceJS)
    | none, none => none
    | none, some (a, r) => some (c :: a, r)

/-- The raw pieces of the split (before the JS `.filter`); fuel-based.
`splitOnce` strictly shrinks its input, so `l.length + 1` fuel suffices. -/
def rawSplitF : Nat → List Char → List (List Char)
  | 0, l => [l]
  | f + 1, l =>
    match splitOnce l with
    | none => [l]
    | some (a, r) => dropTrailWs a :: rawSplitF f r

/-- Is the piece kept by `filter(cmd => cmd && cmd.trim().length > 0)`?
A string is truthy iff nonempty, and its trim is nonempty iff it contains a
non-space character, so the two conjuncts collapse to the latter. -/
def keepPiece (l : List Char) : Bool :=
  l.any (fun c => !isSpaceJS c)

/-- `splitCompoundCommand`.  (The JS falsy/type guard returns `[]` for
non-strings; the guard for the empty string is subsumed: the split of `""`
is `[""]` and the filter removes it.) -/
def splitCompound (l : List Char) : List (List Char) :=
  (rawSplitF (l.length + 1) l).filter keepPiece

example : splitCompound ("echo a && echo b".toList) = ["echo a".toList, "echo b".toList] := by decide
example : splitCompound ("echo a; echo b || echo c".toList) =
    ["echo a".toList, "echo b".toList, "echo c".toList] := by decide
example : splitCompound ("echo a\necho b".toList) = ["echo a\necho b".toList] := by decide
example : splitCompound ("\n".toList) = [] := by decide
example : splitCompound ("a &&& b".toList) = ["a".toList, "& b".toList] := by decide
example : splitCompound (" foo && bar ".toList) = [" foo".toList, "bar ".toList] := by decide
example : splitCompound ("a ;; b".toList) = ["a".toList, "b".toList] := by decide

/-- `nonAllowed.join(' ; ')` of checkScoutBlock. -/
def joinSemi : List (List Char) → List Char
  | [] => []
  | [p] => p
  | p :: q :: ps => p ++ (' ' :: (';' :: (' ' :: joinSemi (q :: ps))))

/-! ### `unwrapShellExecutor` (scout-checker.cjs lines 92-98)

```js
const match = command.trim().match(/^(?:(?:bash|sh|zsh)\s+-c|eval)\s+["'](.+)["']\s*$/);
return match ? match[1] : command;
```

Rendering: the executor alternatives begin with pairwise distinct characters
(`b`, `s`, `z`, `e`), so the ordered alternation is a case split; both `\s+`
runs are forced-maximal (followed by the non-space `-c`, resp. a quote).
Since the subject is trimmed, `\s*$` can only match the empty string, so the
closing `["']` must be the final character; `(.+)` is then everything
between the opening quote and that final character, which must be nonempty
and (as `.` matches no line terminator) free of line terminators. -/

/-- Parse `(?:(?:bash|sh|zsh)\s+-c|eval)` at the head, returning the rest. -/
def parseShellC (w l : List Char) : Option (List Char) :=
  if w.isPrefixOf l then
    let r := l.drop w.length
    if (r.takeWhile isSpaceJS).isEmpty then none
    else
      let r1 := r.dropWhile isSpaceJS
      if ("-c".toList).isPrefixOf r1 then some (r1.drop 2) else none
  else none

def parseExec (l : List Char) : Option (List Char) :=
  match parseShellC ("bash".toList) l with
  | some r => some r
  | none =>
  match parseShellC ("sh".toList) l with
  | some r => some r
  | none =>
  match parseShellC ("zsh".toList) l with
  | some r => some r
  | none =>
    if ("eval".toList).isPrefixOf l then some (l.drop 4) else none

/-- `unwrapShellExecutor`. -/
def unwrapShellExecutor (l : List Char) : List Char :=
  let t := trimJS l
  match parseExec t with
  | none => l
  | some r =>
    if (r.takeWhile isSpaceJS).isEmpty then l
    else
      match r.dropWhile isSpaceJS with
      | q :: rest =>
        if (q = '"' || q = '\'') then
          match rest.getLast? with
          | some q2 =>
            if (q2 = '"' || q2 = '\'') && !rest.dropLast.isEmpty
                && rest.dropLast.all (fun c => !isLineTerm c) then
              rest.dropLast
            else l
          | none => l
        else l
      | [] => l

example : unwrapShellExecutor ("bash -c \"npm run build\"".toList) = "npm run build".toList := by decide
example : unwrapShellExecutor ("eval 'echo hi'".toList) = "echo hi".toList := by decide
example : unwrapShellExecutor ("zsh  -c 'x'".toList) = "x".toList := by decide
example : unwrapShellExecutor ("bash -c 'a' 'b'".toList) = "a' 'b".toList := by decide
example : unwrapShellExecutor ("npm run build && npm test".toList) = "npm run build && npm test".toList := by decide
example : unwrapShellExecutor ("bash -c \"a\nb\"".toList) = "bash -c \"a\nb\"".toList := by decide
example : unwrapShellExecutor ("sh -c ''".toList) = "sh -c ''".toList := by decide
example : unwrapShellExecutor ("evaluated 'x'".toList) = "evaluated 'x'".toList := by decide

/-! ### Pattern matcher

Modelled from the spec: `scout-block/pattern-matcher.cjs` (gitignore-style
matching via the `ignore` package) is not part of the repository snapshot;
this section follows spec sections 4.1 and 6. -/

/-- One ignore-style rule: its glob text (negation marker and trailing slash
removed), the negation flag, and the directory-only flag. -/
structure PatternRule where
  pattern : List Char
  negated : Bool
  dirOnly : Bool
deriving DecidableEq, Repr

/-- Result of matching one path against the compiled rule set. -/
structure MatchResult where
  blocked : Bool
  pattern : Option (List Char) := none
deriving DecidableEq, Repr

/-- Modelled from the spec: rule-resource parsing (spec section 6) — one rule
per line, blank lines ignored, `#`-prefixed lines are comments, `!`-prefixed
lines are negations, trailing `/` marks a directory-only rule. -/
def parseRuleLine (l : List Char) : Option PatternRule :=
  let t := trimJS l
  match t with
  | [] => none
  | '#' :: _ => none
  | _ =>
    let neg := t.head? = some '!'
    let t1 := if neg then t.tail else t
    let dir := t1.getLast? = some '/'
    let t2 := if dir then t1.dropLast else t1
    if t2.isEmpty then none else some { pattern := t2, negated := neg, dirOnly := dir }

/-- Modelled from the spec: `loadPatterns` compiles the ordered rule lines,
safely ignoring malformed lines (spec section 4.1); the unreadable-resource
case is rendered by the caller passing an empty line list. -/
def loadPatterns (lines : List (List Char)) : List PatternRule :=
  lines.filterMap parseRuleLine

/-- Split a path or glob on `/`, discarding empty segments (e.g. from a
leading slash). -/
def slashSegsF : Nat → List Char → List (List Char)
  | 0, _ => []
  | f + 1, l =>
    match l with
    | [] => []
    | _ =>
      let t := l.takeWhile (fun c => c ≠ '/')
      let r := l.dropWhile (fun c => c ≠ '/')
      t :: slashSegsF f (r.drop 1)

/-- Path/pattern segments. -/
def slashSegs (l : List Char) : List (List Char) :=
  (slashSegsF (l.length + 1) l).filter (fun s => !s.isEmpty)

/-- Modelled from the spec: glob match of one pattern segment against one
path segment — `*` matches any run within the segment, `?` one character,
other characters literally (spec section 4.1). -/
def segMatchF : Nat → List Char → List Char → Bool
  | 0, p, s => p.isEmpty && s.isEmpty
  | f + 1, p, s =>
    match p, s with
    | [], [] => true
    | [], _ :: _ => false
    | '*' :: ps, t =>
      segMatchF f ps t ||
      (match t with
       | [] => false
       | _ :: ts => segMatchF f ('*' :: ps) ts)
    | '?' :: ps, _ :: ts => segMatchF f ps ts
    | '?' :: _, [] => false
    | c :: ps, t :: ts => c = t && segMatchF f ps ts
    | _ :: _, [] => false

/-- Segment-level glob match with enough fuel for full backtracking. -/
def segMatch (p s : List Char) : Bool :=
  segMatchF (p.length + s.length + 1) p s

/-- Modelled from the spec: match a segmented glob against path segments from
the start — `**` spans any number of segments; a pattern that is exhausted
while path segments remain still matches (a rule for a directory matches
everything under it).  In `dir` mode (a directory-only rule) at least one
path segment must remain beyond the match. -/
def segsMatchF : Nat → Bool → List (List Char) → List (List Char) → Bool
  | 0, _, _, _ => false
  | f + 1, dir, ps, segs =>
    match ps with
    | [] => if dir then !segs.isEmpty else true
    | p :: pr =>
      if p = "**".toList then
        segsMatchF f dir pr segs ||
        (match segs with
         | [] => false
         | _ :: sr => segsMatchF f dir (p :: pr) sr)
      else
        match segs with
        | [] => false
        | s :: sr => segMatch p s && segsMatchF f dir pr sr

/-- Modelled from the spec: does rule `r` match `path` (spec section 4.1)?
A rule whose glob contains `/` is anchored and matched against the segment
list from the start; a rule without `/` is unanchored and matches if any
path segment (any non-final segment, for a directory-only rule) matches it. -/
def ruleMatches (r : PatternRule) (path : List Char) : Bool :=
  let psegs := slashSegs path
  let fuel := r.pattern.length + path.length + 2
  if r.pattern.contains '/' then
    segsMatchF fuel r.dirOnly (slashSegs r.pattern) psegs
  else
    if r.dirOnly then psegs.dropLast.any (fun s => segMatch r.pattern s)
    else psegs.any (fun s => segMatch r.pattern s)

/-- The compiled matcher is the ordered rule list (spec section 4.1:
"compiles an ordered list of ignore-style rules into a matcher"). -/
def createMatcher (rules : List PatternRule) : List PatternRule :=
  rules

/-- Modelled from the spec: evaluate the rules in file order, each matching
rule overriding the verdict so far — "last matching rule wins"; a plain match
blocks, a negated match unblocks (spec section 4.1). -/
def matchPath (matcher : List PatternRule) (path : List Char) : MatchResult :=
  let last := matcher.foldl
    (fun acc r => if ruleMatches r path then some r else acc)
    (none : Option PatternRule)
  match last with
  | some r => if r.negated then { blocked := false } else { blocked := true, pattern := some r.pattern }
  | none => { blocked := false }

example : (matchPath (loadPatterns ["**/etc/**".toList]) ("../../etc/secrets".toList)).blocked = true := by decide
example : (matchPath (loadPatterns ["node_modules".toList]) ("packages/web/node_modules/x.js".toList)).blocked = true := by decide
example : (matchPath (loadPatterns ["dist".toList, "!dist".toList]) ("dist/a.js".toList)).blocked = false := by decide
example : (matchPath (loadPatterns ["# comment".toList, "".toList]) ("anything".toList)).blocked = false := by decide
example : (matchPath (loadPatterns ["build/".toList]) ("build/out.js".toList)).blocked = true := by decide

/-! ### Action descriptions and the remaining collaborators -/

/-- The `command` field of a tool input: absent, a string, or (JS being
untyped) some non-string value of which only truthiness matters. -/
inductive CmdVal where
  | absent
  | str (s : List Char)
  | other (truthy : Bool)
deriving DecidableEq, Repr

/-- JS truthiness of the `command` field (a string is truthy iff nonempty). -/
def CmdVal.truthy : CmdVal → Bool
  | .absent => false
  | .str s => !s.isEmpty
  | .other b => b

/-- The `tool_input` object: `file_path`, `path`, `pattern`, `command`. -/
structure ToolInput where
  command : CmdVal := .absent
  pattern : Option (List Char) := none
  file_path : Option (List Char) := none
  path : Option (List Char) := none
deriving DecidableEq, Repr

/-- JS truthiness of an optional string field. -/
def optTruthy : Option (List Char) → Bool
  | none => false
  | some s => !s.isEmpty

/-- Result of the broad-pattern detector. -/
structure BroadResult where
  blocked : Bool
  reason : Option (List Char) := none
  suggestions : List (List Char) := []
deriving DecidableEq, Repr

/-- Modelled from the spec: `detectBroadPatternIssue` of
`scout-block/broad-pattern-detector.cjs` (not in the snapshot) — flags
"unqualified recursive wildcards with no file-type or name qualifier" and
returns narrower suggestions (spec section 4.3). -/
def detectBroadPatternIssue (ti : ToolInput) : BroadResult :=
  match ti.pattern with
  | none => { blocked := false }
  | some p =>
    if p = "**".toList || p = "**/*".toList || p = "*".toList || p = "**/*.*".toList then
      { blocked := true,
        reason := some ("Pattern enumerates every file under every directory".toList),
        suggestions := ["**/*.<ext>".toList, "src/**/*".toList] }
    else { blocked := false }

/-- Does `sub` occur contiguously in `l`? -/
def containsSeq (sub : List Char) : List Char → Bool
  | [] => sub.isEmpty
  | c :: t => sub.isPrefixOf (c :: t) || containsSeq sub t

/-- Modelled from the spec: is a command token path-shaped (spec section
4.2)?  Keep arguments that look like relative or absolute filesystem paths;
skip flag tokens, URLs and `key=value` pairs. -/
def looksLikePath (t : List Char) : Bool :=
  !t.isEmpty &&
  t.head? ≠ some '-' &&
  !containsSeq ("://".toList) t &&
  !t.contains '=' &&
  t.contains '/'

/-- Whitespace-separated tokens of a command string (fuel-based). -/
def wsTokensF : Nat → List Char → List (List Char)
  | 0, _ => []
  | f + 1, l =>
    match l.dropWhile isSpaceJS with
    | [] => []
    | r =>
      r.takeWhile (fun c => !isSpaceJS c) :: wsTokensF f (r.dropWhile (fun c => !isSpaceJS c))

/-- Whitespace-separated tokens. -/
def wsTokens (l : List Char) : List (List Char) :=
  wsTokensF (l.length + 1) l

/-- Modelled from the spec: `extractFromToolInput` of
`scout-block/path-extractor.cjs` (not in the snapshot) — path and pattern
fields are yielded directly; command text is scanned for path-shaped tokens
(spec section 4.2). -/
def extractFromToolInput (ti : ToolInput) : List (List Char) :=
  (match ti.file_path with | some p => [p] | none => []) ++
  (match ti.path with | some p => [p] | none => []) ++
  (match ti.pattern with | some p => [p] | none => []) ++
  (match ti.command with
   | .str s => (wsTokens s).filter looksLikePath
   | _ => [])

example : extractFromToolInput { command := .str ("cat ../../etc/secrets".toList) } =
    ["../../etc/secrets".toList] := by decide
example : extractFromToolInput { command := .str ("".toList) } = [] := by decide
example : extractFromToolInput { command := .str ("ls -la --color=auto".toList) } = [] := by decide

/-! ### `checkScoutBlock` (scout-checker.cjs lines 155-232) -/

/-- The externally visible decision object.  Absent JS fields are rendered
by the defaults (`none`, `false`, `[]`). -/
structure GuardDecision where
  blocked : Bool
  path : Option (List Char) := none
  pattern : Option (List Char) := none
  reason : Option (List Char) := none
  isBroadPattern : Bool := false
  isAllowedCommand : Bool := false
  suggestions : List (List Char) := []
deriving DecidableEq, Repr

/-- The three collaborator modules imported by the facade
(`pattern-matcher.cjs`, `path-extractor.cjs`, `broad-pattern-detector.cjs`),
as explicit parameters of the embedding; `specCollabs` instantiates them
with the spec-modelled versions above.  (`createMatcher` is composed into
`matchPathFn`.) -/
structure Collabs where
  loadPatternsFn : List (List Char) → List PatternRule
  matchPathFn : List PatternRule → List Char → MatchResult
  extractFn : ToolInput → List (List Char)
  detectFn : ToolInput → BroadResult

/-- The spec-modelled collaborator instances. -/
def specCollabs : Collabs where
  loadPatternsFn := loadPatterns
  matchPathFn := fun rules p => matchPath (createMatcher rules) p
  extractFn := extractFromToolInput
  detectFn := detectBroadPatternIssue

/-- The loop `for (const extractedPath of extractedPaths) { ... }`:
first path whose match is blocked, together with that match. -/
def findFirstBlocked (m : List Char → MatchResult) : List (List Char) → Option (List Char × MatchResult)
  | [] => none
  | p :: ps =>
    let r := m p
    if r.blocked then some (p, r) else findFirstBlocked m ps

/-- Step 1 of `checkScoutBlock`: unwrap a shell-executor wrapper, replacing
the command only when the unwrapped text differs (lines 162-169; the guard
`if (toolInput.command)` is a truthiness test, and `unwrapShellExecutor`
returns non-strings unchanged). -/
def unwrapStep (ti : ToolInput) : ToolInput :=
  if ti.command.truthy then
    match ti.command with
    | .str s =>
      let u := unwrapShellExecutor s
      if u = s then ti else { ti with command := .str u }
    | _ => ti
  else ti

/-- The JS template string of line 225. -/
def blockedReason (pat : Option (List Char)) : List Char :=
  ("Path matches blocked pattern: ".toList) ++
  (match pat with
   | some p => p
   | none => "undefined".toList)

/-- Step 2 of `checkScoutBlock` (lines 176-186): split the compound command,
filter the non-allowed sub-commands (`!isAllowedCommand(cmd.trim())`), return
the recognized-tooling allow when none remain, and narrow the command to the
rejoined non-allowed sub-commands when some (but not all) were allowed.
(`splitCompoundCommand` of a truthy non-string is `[]`.) -/
def commandStep (ti : ToolInput) : Option GuardDecision × ToolInput :=
  if ti.command.truthy then
    let subs := match ti.command with
                | .str s => splitCompound s
                | _ => []
    let nonAllowed := subs.filter (fun cmd => !isAllowedCommand (trimJS cmd))
    if nonAllowed.isEmpty then
      (some { blocked := false, isAllowedCommand := true }, ti)
    else if nonAllowed.length < subs.length then
      (none, { ti with command := .str (joinSemi nonAllowed) })
    else (none, ti)
  else (none, ti)

/-- Step 3 of `checkScoutBlock` (lines 189-200): the broad-pattern check,
run only for the Glob tool or a truthy pattern field. -/
def broadStep (cb : Collabs) (toolName : List Char) (checkBroadPatterns : Bool)
    (ti : ToolInput) : Option GuardDecision :=
  if checkBroadPatterns && (toolName = "Glob".toList || optTruthy ti.pattern) then
    let br := cb.detectFn ti
    if br.blocked then
      some { blocked := true,
             isBroadPattern := true,
             pattern := ti.pattern,
             reason := some (match br.reason with
               | some r => r
               | none => "Pattern too broad - may fill context with too many files".toList),
             suggestions := br.suggestions }
    else none
  else none

/-- Steps 4-5 of `checkScoutBlock` (lines 203-231): load and compile the
rules, extract candidate paths from the (possibly narrowed) input, allow
when none, otherwise block on the first matching path. -/
def pathStep (cb : Collabs) (ruleLines : List (List Char)) (ti : ToolInput) : GuardDecision :=
  let patterns := cb.loadPatternsFn ruleLines
  let extracted := cb.extractFn ti
  if extracted.isEmpty then { blocked := false }
  else
    match findFirstBlocked (cb.matchPathFn patterns) extracted with
    | some (p, r) =>
      { blocked := true, path := some p, pattern := r.pattern,
        reason := some (blockedReason r.pattern) }
    | none => { blocked := false }

/-- `checkScoutBlock` (lines 155-232).  The `.ckignore` resource read by
`loadPatterns` is rendered as the explicit `ruleLines` input (the option
fields `ckignorePath`/`claudeDir` only choose which file is read); the
`checkBroadPatterns` option keeps its role. -/
def checkScoutBlock (cb : Collabs) (ruleLines : List (List Char)) (toolName : List Char)
    (checkBroadPatterns : Bool) (ti0 : ToolInput) : GuardDecision :=
  match commandStep (unwrapStep ti0) with
  | (some d, _) => d
  | (none, ti2) =>
    match broadStep cb toolName checkBroadPatterns ti2 with
    | some d => d
    | none => pathStep cb ruleLines ti2

example :
    checkScoutBlock specCollabs ["**/etc/**".toList] ("Bash".toList) true
      { command := .str ("npm run build && cat ../../etc/secrets".toList) } =
    { blocked := true, path := some ("../../etc/secrets".toList),
      pattern := some ("**/etc/**".toList),
      reason := some ("Path matches blocked pattern: **/etc/**".toList) } := by decide

example :
    checkScoutBlock specCollabs ["**/etc/**".toList] ("Bash".toList) true
      { command := .str ("npm run build && npm test".toList) } =
    { blocked := false, isAllowedCommand := true } := by decide

example :
    checkScoutBlock specCollabs [] ("Bash".toList) true
      { command := .str ("".toList) } = { blocked := false } := by decide

example :
    (checkScoutBlock specCollabs [] ("Bash".toList) true
      { command := .str (" ".toList) }).isAllowedCommand = true := by decide

example :
    (checkScoutBlock specCollabs [] ("Glob".toList) true
      { pattern := some ("**/*".toList) }).isBroadPattern = true := by decide

/-! ### The host-facing hook `scout-block.cjs`
(embedded in docs/security-configuration.md, lines 120-266) -/

/-- The successfully parsed hook payload: `tool_input` is `none` when the
field is missing or not an object (the `!data.tool_input || typeof
data.tool_input !== 'object'` check), `tool_name` is optional. -/
structure HookData where
  tool_input : Option ToolInput
  tool_name : Option (List Char)

/-- The hook's exit code for a given stdin text.  `JSON.parse` is a platform
builtin, rendered as the explicit `parse` parameter (`none` for a parse
error).  Formatting, timers and logging have no effect on the exit code; the
hook is taken as enabled (`isHookEnabled`) since a disabled hook exits 0
before reading input.  Exit codes: 0 allowed, 2 blocked/error. -/
def scoutBlockHook (parse : List Char → Option HookData) (cb : Collabs)
    (ruleLines : List (List Char)) (input : List Char) : Nat :=
  -- `if (!hookInput || hookInput.trim().length === 0)` → ERROR: Empty input, exit 2
  if input.isEmpty || (trimJS input).isEmpty then 2
  else
    match parse input with
    | none => 0        -- WARN: JSON parse failed, allowing operation
    | some data =>
      match data.tool_input with
      | none => 0      -- WARN: Invalid JSON structure, allowing operation
      | some ti =>
        let toolName := match data.tool_name with
                        | some n => n
                        | none => "unknown".toList
        let result := checkScoutBlock cb ruleLines toolName true ti
        if result.isAllowedCommand then 0
        else if result.blocked then 2
        else 0

example : scoutBlockHook (fun _ => none) specCollabs [] ("".toList) = 2 := by decide
example : scoutBlockHook (fun _ => none) specCollabs [] ("not json".toList) = 0 := by decide
example : scoutBlockHook (fun _ => some { tool_input := none, tool_name := none })
    specCollabs [] ("{}".toList) = 0 := by decide

/-! ### General helper lemmas -/

/-- "No leading whitespace" (vacuously true of the empty list). -/
def noLeadWs (l : List Char) : Bool :=
  match l.head? with
  | some c => !isSpaceJS c
  | none => true

/-- "No trailing whitespace" (vacuously true of the empty list). -/
def noTrailWs (l : List Char) : Bool :=
  match l.getLast? with
  | some c => !isSpaceJS c
  | none => true

theorem head?_dropWhile_false (p : Char → Bool) (l : List Char) :
    ∀ c ∈ (l.dropWhile p).head?, p c = false := by
  have h := List.head?_dropWhile_not p l
  intro c hc
  rw [Option.mem_def] at hc
  rw [hc] at h
  exact h

theorem dropWhile_eq_self_of_head {p : Char → Bool} {l : List Char}
    (h : ∀ c ∈ l.head?, p c = false) : l.dropWhile p = l := by
  cases l with
  | nil => rfl
  | cons a t =>
    have ha : p a = false := h a (by simp)
    simp [List.dropWhile_cons, ha]

theorem noLeadWs_dropWhile (l : List Char) : noLeadWs (l.dropWhile isSpaceJS) = true := by
  unfold noLeadWs
  cases hd : (l.dropWhile isSpaceJS).head? with
  | none => rfl
  | some c =>
    have := head?_dropWhile_false isSpaceJS l c (by simp [hd])
    simp [this]

theorem getLast?_reverse' (l : List Char) : l.reverse.getLast? = l.head? := by
  have h := List.head?_reverse l.reverse
  rw [List.reverse_reverse] at h
  exact h.symm

theorem head?_reverse' (l : List Char) : l.reverse.head? = l.getLast? := List.head?_reverse l

/-- `dropTrailWs` output has no trailing whitespace. -/
theorem noTrailWs_dropTrailWs (l : List Char) : noTrailWs (dropTrailWs l) = true := by
  unfold noTrailWs dropTrailWs
  rw [getLast?_reverse']
  cases hd : (l.reverse.dropWhile isSpaceJS).head? with
  | none => rfl
  | some c =>
    have := head?_dropWhile_false isSpaceJS l.reverse c (by simp [hd])
    simp [this]

/-- `dropTrailWs` is the identity on lists with no trailing whitespace. -/
theorem dropTrailWs_eq_self {l : List Char} (h : noTrailWs l = true) : dropTrailWs l = l := by
  unfold dropTrailWs
  rw [dropWhile_eq_self_of_head, List.reverse_reverse]
  intro c hc
  rw [head?_reverse'] at hc
  unfold noTrailWs at h
  cases hg : l.getLast? with
  | none => simp [hg] at hc
  | some d =>
    rw [hg] at h hc
    simp only [Option.mem_def, Option.some.injEq] at hc
    subst hc
    simpa using h

/-- `trimJS` as leading-run removal followed by `dropTrailWs`. -/
theorem trimJS_def' (l : List Char) : trimJS l = dropTrailWs (l.dropWhile isSpaceJS) := rfl

/-- A list splits as its `dropTrailWs` part plus a whitespace run. -/
theorem dropTrailWs_append (l : List Char) :
    dropTrailWs l ++ (l.reverse.takeWhile isSpaceJS).reverse = l := by
  unfold dropTrailWs
  rw [← List.reverse_append, ← List.takeWhile_append_dropWhile isSpaceJS l.reverse]
  simp

theorem noLeadWs_dropTrailWs {l : List Char} (h : noLeadWs l = true) :
    noLeadWs (dropTrailWs l) = true := by
  unfold noLeadWs at h ⊢
  cases hd : (dropTrailWs l).head? with
  | none => rfl
  | some c =>
    have hsplit := dropTrailWs_append l
    have : l.head? = some c := by
      rw [← hsplit]
      cases hdt : dropTrailWs l with
      | nil => rw [hdt] at hd; simp at hd
      | cons a t =>
        rw [hdt] at hd
        simp at hd
        simp [hd]
    rw [this] at h
    exact h

/-- `trimJS` output has no leading and no trailing whitespace. -/
theorem noLeadWs_trimJS (l : List Char) : noLeadWs (trimJS l) = true := by
  rw [trimJS_def']
  exact noLeadWs_dropTrailWs (noLeadWs_dropWhile l)

theorem noTrailWs_trimJS (l : List Char) : noTrailWs (trimJS l) = true := by
  rw [trimJS_def']
  exact noTrailWs_dropTrailWs _

/-- `trimJS` is the identity on trimmed lists. -/
theorem trimJS_eq_self {l : List Char} (h1 : noLeadWs l = true) (h2 : noTrailWs l = true) :
    trimJS l = l := by
  rw [trimJS_def', dropWhile_eq_self_of_head, dropTrailWs_eq_self h2]
  intro c hc
  unfold noLeadWs at h1
  rw [Option.mem_def] at hc
  rw [hc] at h1
  simpa using h1

/-- `trimJS` is idempotent. -/
theorem trimJS_trimJS (l : List Char) : trimJS (trimJS l) = trimJS l :=
  trimJS_eq_self (noLeadWs_trimJS l) (noTrailWs_trimJS l)

/-! ### Lemmas about `stripCommandPrefix` -/

theorem stripEnvLoopF_none {l : List Char} (f : Nat) (h : stripEnvOnce l = none) :
    stripEnvLoopF f l = l := by
  cases f with
  | zero => rfl
  | succ n => simp [stripEnvLoopF, h]

theorem stripEnvLoop_none {l : List Char} (h : stripEnvOnce l = none) :
    stripEnvLoop l = l :=
  stripEnvLoopF_none _ h

/-- The output of `stripCommandPrefix` is trimmed. -/
theorem trimJS_stripCommandPrefix (l : List Char) :
    trimJS (stripCommandPrefix l) = stripCommandPrefix l := by
  unfold stripCommandPrefix
  exact trimJS_trimJS _

/-- C3, amended part: `stripCommandPrefix` is idempotent on every command
whose normalized form begins with neither an environment-assignment prefix
nor a wrapper word followed by whitespace. -/
theorem stripCommandPrefix_eq_self {n : List Char} (ht : trimJS n = n)
    (henv : stripEnvOnce n = none) (hwrap : stripWrapperOnce n = none) :
    stripCommandPrefix n = n := by
  unfold stripCommandPrefix
  simp only [ht, stripEnvLoop_none henv, hwrap]

/-- C3, counterexample: `normalize` (`stripCommandPrefix`) is not idempotent.
On `"sudo sudo ls"` one application strips one wrapper layer (giving
`"sudo ls"`), and a second application strips another (giving `"ls"`). -/
theorem c3_counterexample :
    stripCommandPrefix (stripCommandPrefix ("sudo sudo ls".toList)) ≠
      stripCommandPrefix ("sudo sudo ls".toList) ∧
    stripCommandPrefix ("sudo sudo ls".toList) = "sudo ls".toList ∧
    stripCommandPrefix ("sudo ls".toList) = "ls".toList := by
  refine ⟨?_, by decide, by decide⟩
  decide

/-- C3, amended: `normalize` (`stripCommandPrefix`) is idempotent on every
command whose normalized form begins with neither an environment-variable
assignment prefix (`\w+=\S+` then whitespace) nor a recognized wrapper word
followed by whitespace; on other commands a second application strips one
further layer. -/
theorem c3_theorem (c : List Char)
    (henv : stripEnvOnce (stripCommandPrefix c) = none)
    (hwrap : stripWrapperOnce (stripCommandPrefix c) = none) :
    stripCommandPrefix (stripCommandPrefix c) = stripCommandPrefix c :=
  stripCommandPrefix_eq_self (trimJS_stripCommandPrefix c) henv hwrap

/-- Witness for C3: the hypotheses hold at `"A=1 sudo ls"` and the theorem
applies there. -/
theorem c3_witness :
    stripEnvOnce (stripCommandPrefix ("A=1 sudo ls".toList)) = none ∧
    stripWrapperOnce (stripCommandPrefix ("A=1 sudo ls".toList)) = none ∧
    stripCommandPrefix (stripCommandPrefix ("A=1 sudo ls".toList)) =
      stripCommandPrefix ("A=1 sudo ls".toList) :=
  ⟨by decide, by decide, c3_theorem ("A=1 sudo ls".toList) (by decide) (by decide)⟩

/-! ### Lemmas about `splitCompoundCommand` -/

theorem opLen_some_shape {l : List Char} {n : Nat} (h : opLen l = some n) :
    ("&&".toList).isPrefixOf l ∨ ("||".toList).isPrefixOf l ∨ (";".toList).isPrefixOf l := by
  cases l with
  | nil => exact absurd h (by simp [opLen])
  | cons c t =>
    unfold opLen at h
    simp only [] at h
    split_ifs at h with h1 h2 h3
    · left
      rw [Bool.and_eq_true, decide_eq_true_iff, decide_eq_true_iff] at h1
      obtain ⟨hc, hh⟩ := h1
      subst hc
      cases t with
      | nil => simp at hh
      | cons d t' =>
        simp only [List.head?_cons, Option.some.injEq] at hh
        subst hh
        simp [List.isPrefixOf]
    · right; left
      rw [Bool.and_eq_true, decide_eq_true_iff, decide_eq_true_iff] at h2
      obtain ⟨hc, hh⟩ := h2
      subst hc
      cases t with
      | nil => simp at hh
      | cons d t' =>
        simp only [List.head?_cons, Option.some.injEq] at hh
        subst hh
        simp [List.isPrefixOf]
    · right; right
      subst h3
      simp [List.isPrefixOf]

theorem containsSeq_of_isPrefixOf {sub l : List Char} (h : sub.isPrefixOf l) :
    containsSeq sub l = true := by
  cases l with
  | nil =>
    have : sub = [] := by
      cases sub with
      | nil => rfl
      | cons a t => simp [List.isPrefixOf] at h
    simp [containsSeq, this]
  | cons a t => simp [containsSeq, h]

/-- A command containing none of the operators has no split point. -/
theorem noOps_splitOnce (c : List Char)
    (h1 : containsSeq ("&&".toList) c = false)
    (h2 : containsSeq ("||".toList) c = false)
    (h3 : containsSeq (";".toList) c = false) : splitOnce c = none := by
  induction c with
  | nil => rfl
  | cons a t ih =>
    simp only [containsSeq, Bool.or_eq_false_iff] at h1 h2 h3
    have hop : opLen (a :: t) = none := by
      cases hopt : opLen (a :: t) with
      | none => rfl
      | some n =>
        rcases opLen_some_shape hopt with hp | hp | hp
        · rw [hp] at h1; simp at h1
        · rw [hp] at h2; simp at h2
        · rw [hp] at h3; simp at h3
    have ht := ih h1.2 h2.2 h3.2
    unfold splitOnce
    rw [hop, ht]

/-- C7, counterexample: the whitespace-only command `"\n"` contains a newline
and none of the operators, yet splits into zero sub-commands (the filter
removes blank pieces), not one. -/
theorem c7_counterexample :
    ("\n".toList).contains '\n' = true ∧
    containsSeq ("&&".toList) ("\n".toList) = false ∧
    containsSeq ("||".toList) ("\n".toList) = false ∧
    containsSeq (";".toList) ("\n".toList) = false ∧
    splitCompound ("\n".toList) = [] := by
  refine ⟨by decide, by decide, by decide, by decide, by decide⟩

/-- C7, amended: `split` divides on the operators `&&`, `||`, `;` only, and
never on line breaks: the two example commands split exactly as stated, and
any command that contains a newline, none of those operators, and at least
one non-whitespace character yields the single sub-command equal to the
command itself.  (A command with no non-whitespace character yields zero
sub-commands instead.) -/
theorem c7_theorem :
    splitCompound ("echo a && echo b".toList) = ["echo a".toList, "echo b".toList] ∧
    splitCompound ("echo a; echo b || echo c".toList) =
      ["echo a".toList, "echo b".toList, "echo c".toList] ∧
    ∀ c : List Char, c.contains '\n' = true →
      containsSeq ("&&".toList) c = false →
      containsSeq ("||".toList) c = false →
      containsSeq (";".toList) c = false →
      c.any (fun ch => !isSpaceJS ch) = true →
      splitCompound c = [c] := by
  refine ⟨by decide, by decide, ?_⟩
  intro c _ h1 h2 h3 h4
  have hso := noOps_splitOnce c h1 h2 h3
  unfold splitCompound
  have hraw : rawSplitF (c.length + 1) c = [c] := by
    unfold rawSplitF
    rw [hso]
  rw [hraw]
  simp [keepPiece, h4]

/-- Witness for C7: the universally quantified part applies at
`"echo hi\nworld"`. -/
theorem c7_witness :
    splitCompound ("echo hi\nworld".toList) = ["echo hi\nworld".toList] :=
  c7_theorem.2.2 ("echo hi\nworld".toList) (by decide) (by decide) (by decide) (by decide)
    (by decide)

/-! ### C6: last matching rule wins -/

theorem foldl_lastMatch (f : PatternRule → Bool) (R : List PatternRule)
    (init : Option PatternRule) :
    R.foldl (fun acc r => if f r then some r else acc) init =
      match (R.filter f).getLast? with
      | some r => some r
      | none => init := by
  induction R using List.reverseRecOn generalizing init with
  | nil => rfl
  | append_singleton R a ih =>
    rw [List.foldl_append, List.filter_append]
    simp only [List.foldl_cons, List.foldl_nil, List.filter_cons, List.filter_nil]
    cases hfa : f a with
    | true =>
      simp only [if_pos rfl]
      rw [List.getLast?_append]
      simp [ih]
    | false =>
      simp only [Bool.false_eq_true, if_false, List.append_nil]
      exact ih init

/-- C6: for every ordered rule set `R` and path `P`, the matcher's verdict is
decided by the last rule of `R` (in file order) that matches `P`: not-blocked
when that rule is a negation, blocked (naming the rule) when it is plain, and
not-blocked when no rule matches.  (Spec-modelled: the pattern-matcher module
is not in the snapshot.) -/
theorem c6_theorem (R : List PatternRule) (P : List Char) :
    matchPath (createMatcher R) P =
      match (R.filter (fun r => ruleMatches r P)).getLast? with
      | some r =>
        if r.negated then { blocked := false }
        else { blocked := true, pattern := some r.pattern }
      | none => { blocked := false } := by
  unfold matchPath createMatcher
  rw [foldl_lastMatch (fun r => ruleMatches r P) R none]
  cases (R.filter (fun r => ruleMatches r P)).getLast? with
  | none => rfl
  | some r => rfl

example :
    matchPath (createMatcher (loadPatterns ["dist".toList, "!dist/keep.js".toList]))
      ("dist/keep.js".toList) = { blocked := false } := by decide

/-! ### Lemmas about `unwrapShellExecutor` -/

/-- Quote characters accepted by the executor regex. -/
def isQuote (c : Char) : Bool := c = '"' || c = '\''

theorem append_drop_of_isPrefixOf {w l : List Char} (h : w.isPrefixOf l) :
    w ++ l.drop w.length = l := by
  rcases List.isPrefixOf_iff_prefix.mp h with ⟨s, rfl⟩
  rw [List.drop_left]

theorem mem_takeWhile_sat {p : Char → Bool} {l : List Char} :
    ∀ c ∈ l.takeWhile p, p c = true := by
  intro c hc
  have h := List.all_takeWhile (p := p) (l := l)
  exact List.all_eq_true.mp h c hc

theorem parseShellC_sound {w l r : List Char} (h : parseShellC w l = some r) :
    ∃ sp, sp ≠ [] ∧ (∀ c ∈ sp, isSpaceJS c = true) ∧
      l = w ++ (sp ++ ("-c".toList ++ r)) := by
  unfold parseShellC at h
  by_cases hw : w.isPrefixOf l
  · rw [if_pos hw] at h
    simp only at h
    by_cases h1 : ((l.drop w.length).takeWhile isSpaceJS).isEmpty
    · rw [if_pos h1] at h; exact absurd h (by simp)
    · rw [if_neg h1] at h
      by_cases h2 : ("-c".toList).isPrefixOf ((l.drop w.length).dropWhile isSpaceJS)
      · rw [if_pos h2] at h
        have hr : ((l.drop w.length).dropWhile isSpaceJS).drop 2 = r := by
          injection h
        refine ⟨(l.drop w.length).takeWhile isSpaceJS, by simpa using h1,
          mem_takeWhile_sat, ?_⟩
        have e1 : ("-c".toList) ++ (((l.drop w.length).dropWhile isSpaceJS).drop 2) =
            (l.drop w.length).dropWhile isSpaceJS := append_drop_of_isPrefixOf h2
        rw [hr] at e1
        rw [e1, List.takeWhile_append_dropWhile isSpaceJS (l.drop w.length)]
        exact (append_drop_of_isPrefixOf hw).symm
      · rw [if_neg h2] at h; exact absurd h (by simp)
  · rw [if_neg hw] at h; exact absurd h (by simp)

/-- The executor head shapes of the regex
`^(?:(?:bash|sh|zsh)\s+-c|eval)`: the command is the executor invocation
followed by the rest `r`. -/
inductive ExecHead : List Char → List Char → Prop where
  | bash (sp r : List Char) : sp ≠ [] → (∀ c ∈ sp, isSpaceJS c = true) →
      ExecHead ("bash".toList ++ (sp ++ ("-c".toList ++ r))) r
  | sh (sp r : List Char) : sp ≠ [] → (∀ c ∈ sp, isSpaceJS c = true) →
      ExecHead ("sh".toList ++ (sp ++ ("-c".toList ++ r))) r
  | zsh (sp r : List Char) : sp ≠ [] → (∀ c ∈ sp, isSpaceJS c = true) →
      ExecHead ("zsh".toList ++ (sp ++ ("-c".toList ++ r))) r
  | eval (r : List Char) : ExecHead ("eval".toList ++ r) r

theorem parseExec_sound {l r : List Char} (h : parseExec l = some r) : ExecHead l r := by
  unfold parseExec at h
  cases hb : parseShellC ("bash".toList) l with
  | some rb =>
    rw [hb] at h
    injection h with h
    subst h
    rcases parseShellC_sound hb with ⟨sp, hne, hws, rfl⟩
    exact ExecHead.bash sp rb hne hws
  | none =>
    rw [hb] at h
    cases hs : parseShellC ("sh".toList) l with
    | some rs =>
      rw [hs] at h
      injection h with h
      subst h
      rcases parseShellC_sound hs with ⟨sp, hne, hws, rfl⟩
      exact ExecHead.sh sp rs hne hws
    | none =>
      rw [hs] at h
      cases hz : parseShellC ("zsh".toList) l with
      | some rz =>
        rw [hz] at h
        injection h with h
        subst h
        rcases parseShellC_sound hz with ⟨sp, hne, hws, rfl⟩
        exact ExecHead.zsh sp rz hne hws
      | none =>
        rw [hz] at h
        have h' : (if ("eval".toList).isPrefixOf l = true then some (l.drop 4) else none) =
            some r := h
        by_cases he : ("eval".toList).isPrefixOf l
        · rw [if_pos he] at h'
          injection h' with h'
          subst h'
          have e := append_drop_of_isPrefixOf he
          have h2 := ExecHead.eval (l.drop (("eval".toList).length))
          rw [e] at h2
          exact h2
        · rw [if_neg he] at h'
          exact absurd h' (by simp)

/-- Spec-side decomposition of a successful unwrap, following the amended
wording: the trimmed command is an executor invocation, whitespace, an
opening quote, a nonempty line-terminator-free span, and a closing quote as
the final character (the two quote characters need not match, and the span
may itself contain quotes). -/
def ExecUnwrapped (t inner : List Char) : Prop :=
  ∃ sp q1 q2, ExecHead t (sp ++ (q1 :: (inner ++ [q2]))) ∧ sp ≠ [] ∧
    (∀ c ∈ sp, isSpaceJS c = true) ∧ isQuote q1 = true ∧ isQuote q2 = true ∧
    inner ≠ [] ∧ (∀ c ∈ inner, isLineTerm c = false)

theorem dropLast_concat_getLast? {l : List Char} {a : Char} (h : l.getLast? = some a) :
    l.dropLast ++ [a] = l := by
  have hne : l ≠ [] := by
    intro e
    rw [e] at h
    simp at h
  have hg := List.getLast?_eq_getLast l hne
  rw [hg] at h
  injection h with h
  rw [← h]
  exact List.dropLast_append_getLast hne

/-- The branch structure of `unwrapShellExecutor`, with the `let` inlined. -/
theorem unwrapShellExecutor_eq (l : List Char) :
    unwrapShellExecutor l =
      match parseExec (trimJS l) with
      | none => l
      | some r =>
        if (r.takeWhile isSpaceJS).isEmpty then l
        else
          match r.dropWhile isSpaceJS with
          | q :: rest =>
            if (q = '"' || q = '\'') then
              match rest.getLast? with
              | some q2 =>
                if (q2 = '"' || q2 = '\'') && !rest.dropLast.isEmpty
                    && rest.dropLast.all (fun c => !isLineTerm c) then
                  rest.dropLast
                else l
              | none => l
            else l
          | [] => l := rfl

/-- Every call either returns its input unchanged or returns the nonempty
quoted span of an executor-shaped trimmed input. -/
theorem unwrapShellExecutor_spec (c : List Char) :
    unwrapShellExecutor c = c ∨
    (unwrapShellExecutor c ≠ [] ∧ ExecUnwrapped (trimJS c) (unwrapShellExecutor c)) := by
  rw [unwrapShellExecutor_eq]
  cases hp : parseExec (trimJS c) with
  | none => left; rfl
  | some r =>
    simp only []
    by_cases h1 : (r.takeWhile isSpaceJS).isEmpty
    · left; rw [if_pos h1]
    · rw [if_neg h1]
      cases hdw : r.dropWhile isSpaceJS with
      | nil => left; rfl
      | cons q rest =>
        simp only []
        by_cases hq : (q = '"' || q = '\'') = true
        case neg => left; rw [if_neg hq]
        rw [if_pos hq]
        cases hg : rest.getLast? with
        | none => left; rfl
        | some q2 =>
          simp only []
          by_cases hcond : ((q2 = '"' || q2 = '\'') && !rest.dropLast.isEmpty &&
              rest.dropLast.all (fun ch => !isLineTerm ch)) = true
          · rw [if_pos hcond]
            simp only [Bool.and_eq_true] at hcond
            obtain ⟨⟨hq2, hne⟩, hall⟩ := hcond
            have hinner : rest.dropLast ≠ [] := by
              simp only [Bool.not_eq_true'] at hne
              simpa using hne
            right
            refine ⟨hinner, r.takeWhile isSpaceJS, q, q2, ?_, by simpa using h1,
              mem_takeWhile_sat, hq, hq2, hinner, fun ch hch => by
                have := List.all_eq_true.mp hall ch hch
                simpa using this⟩
            have e2 : rest.dropLast ++ [q2] = rest := dropLast_concat_getLast? hg
            have e1 : r.takeWhile isSpaceJS ++ (q :: rest) = r := by
              rw [← hdw]
              exact List.takeWhile_append_dropWhile isSpaceJS r
            rw [e2, e1]
            exact parseExec_sound hp
          · rw [if_neg hcond]
            left; rfl

/-- A nonempty command never unwraps to the empty string. -/
theorem unwrapShellExecutor_ne_nil {c : List Char} (h : c ≠ []) :
    unwrapShellExecutor c ≠ [] := by
  rcases unwrapShellExecutor_spec c with he | ⟨hne, _⟩
  · rw [he]; exact h
  · exact hne

theorem isQuote_not_space {c : Char} (h : isQuote c = true) : isSpaceJS c = false := by
  unfold isQuote at h
  rw [Bool.or_eq_true, decide_eq_true_iff, decide_eq_true_iff] at h
  rcases h with h | h <;> subst h <;> decide

theorem parseShellC_complete (w sp r : List Char) (hne : sp ≠ [])
    (hws : ∀ c ∈ sp, isSpaceJS c = true) :
    parseShellC w (w ++ (sp ++ ("-c".toList ++ r))) = some r := by
  unfold parseShellC
  have hpre : w.isPrefixOf (w ++ (sp ++ ("-c".toList ++ r))) = true :=
    List.isPrefixOf_iff_prefix.mpr (List.prefix_append _ _)
  rw [if_pos hpre]
  simp only [List.drop_left]
  have hlit : ("-c".toList) = '-' :: ('c' :: []) := rfl
  have htw : (sp ++ ("-c".toList ++ r)).takeWhile isSpaceJS = sp := by
    rw [List.takeWhile_append_of_pos hws, hlit]
    simp only [List.cons_append, List.nil_append]
    rw [List.takeWhile_cons_of_neg (by decide)]
    simp
  have hdw : (sp ++ ("-c".toList ++ r)).dropWhile isSpaceJS = "-c".toList ++ r := by
    rw [List.dropWhile_append_of_pos hws, hlit]
    simp only [List.cons_append, List.nil_append]
    rw [List.dropWhile_cons_of_neg (by decide)]
  rw [htw, hdw]
  rw [if_neg (by simpa using hne)]
  rw [if_pos (List.isPrefixOf_iff_prefix.mpr (List.prefix_append _ _))]
  congr 1

theorem parseShellC_none {w l : List Char} (h : w.isPrefixOf l = false) :
    parseShellC w l = none := by
  unfold parseShellC
  rw [if_neg (by simp [h])]

theorem isPrefixOf_cons_ne {a b : Char} (as bs : List Char) (h : (a == b) = false) :
    (a :: as).isPrefixOf (b :: bs) = false := by
  simp only [List.isPrefixOf, h, Bool.false_and]

/-- The core evaluation of `unwrapShellExecutor` on a trimmed executor
command whose parse yields a single whitespace, a quote, the span, and a
final quote. -/
theorem unwrap_of_parse {c inner : List Char} {q1 q2 : Char}
    (ht : trimJS c = c)
    (hp : parseExec c = some (' ' :: (q1 :: (inner ++ [q2]))))
    (hq1 : isQuote q1 = true) (hq2 : isQuote q2 = true)
    (hinner : inner ≠ []) (hlt : ∀ ch ∈ inner, isLineTerm ch = false) :
    unwrapShellExecutor c = inner := by
  rw [unwrapShellExecutor_eq, ht, hp]
  simp only []
  have hq1s : isSpaceJS q1 = false := isQuote_not_space hq1
  have h1 : ((' ' :: (q1 :: (inner ++ [q2]))).takeWhile isSpaceJS) = [' '] := by
    rw [List.takeWhile_cons_of_pos (by decide), List.takeWhile_cons_of_neg (by simp [hq1s])]
  have h2 : ((' ' :: (q1 :: (inner ++ [q2]))).dropWhile isSpaceJS) =
      q1 :: (inner ++ [q2]) := by
    rw [List.dropWhile_cons_of_pos (by decide), List.dropWhile_cons_of_neg (by simp [hq1s])]
  rw [h1, h2]
  rw [if_neg (by decide)]
  simp only []
  have hq1' : (q1 = '"' || q1 = '\'') = true := hq1
  rw [if_pos hq1']
  rw [List.getLast?_concat]
  simp only [List.dropLast_concat]
  have hq2' : (q2 = '"' || q2 = '\'') = true := hq2
  have hall : inner.all (fun ch => !isLineTerm ch) = true :=
    List.all_eq_true.mpr (fun ch hch => by simp [hlt ch hch])
  have hie : inner.isEmpty = false := by simpa using hinner
  rw [if_pos (by rw [hq2', hall, hie]; rfl)]

/-- The four executor invocation prefixes, in canonical single-space form. -/
def execForms : List (List Char) :=
  ["bash -c".toList, "sh -c".toList, "zsh -c".toList, "eval".toList]

theorem parseExec_bashForm (X : List Char) :
    parseExec ("bash -c".toList ++ X) = some X := by
  have h := parseShellC_complete ("bash".toList) [' '] X (by simp)
    (by intro c hc; simp at hc; subst hc; decide)
  have e : ("bash -c".toList ++ X) = ("bash".toList ++ ([' '] ++ ("-c".toList ++ X))) := rfl
  unfold parseExec
  rw [e, h]

theorem parseExec_shForm (X : List Char) :
    parseExec ("sh -c".toList ++ X) = some X := by
  have hb := parseShellC_none (w := "bash".toList) (l := "sh -c".toList ++ X) (by
    rw [show ("bash".toList) = 'b' :: "ash".toList from rfl,
        show ("sh -c".toList ++ X) = 's' :: ("h -c".toList ++ X) from rfl]
    exact isPrefixOf_cons_ne _ _ (by decide))
  have h := parseShellC_complete ("sh".toList) [' '] X (by simp)
    (by intro c hc; simp at hc; subst hc; decide)
  have e : ("sh -c".toList ++ X) = ("sh".toList ++ ([' '] ++ ("-c".toList ++ X))) := rfl
  unfold parseExec
  rw [hb, e, h]

theorem parseExec_zshForm (X : List Char) :
    parseExec ("zsh -c".toList ++ X) = some X := by
  have hb := parseShellC_none (w := "bash".toList) (l := "zsh -c".toList ++ X) (by
    rw [show ("bash".toList) = 'b' :: "ash".toList from rfl,
        show ("zsh -c".toList ++ X) = 'z' :: ("sh -c".toList ++ X) from rfl]
    exact isPrefixOf_cons_ne _ _ (by decide))
  have hs := parseShellC_none (w := "sh".toList) (l := "zsh -c".toList ++ X) (by
    rw [show ("sh".toList) = 's' :: "h".toList from rfl,
        show ("zsh -c".toList ++ X) = 'z' :: ("sh -c".toList ++ X) from rfl]
    exact isPrefixOf_cons_ne _ _ (by decide))
  have h := parseShellC_complete ("zsh".toList) [' '] X (by simp)
    (by intro c hc; simp at hc; subst hc; decide)
  have e : ("zsh -c".toList ++ X) = ("zsh".toList ++ ([' '] ++ ("-c".toList ++ X))) := rfl
  unfold parseExec
  rw [hb, hs, e, h]

theorem parseExec_evalForm (X : List Char) :
    parseExec ("eval".toList ++ X) = some X := by
  have hb := parseShellC_none (w := "bash".toList) (l := "eval".toList ++ X) (by
    rw [show ("bash".toList) = 'b' :: "ash".toList from rfl,
        show ("eval".toList ++ X) = 'e' :: ("val".toList ++ X) from rfl]
    exact isPrefixOf_cons_ne _ _ (by decide))
  have hs := parseShellC_none (w := "sh".toList) (l := "eval".toList ++ X) (by
    rw [show ("sh".toList) = 's' :: "h".toList from rfl,
        show ("eval".toList ++ X) = 'e' :: ("val".toList ++ X) from rfl]
    exact isPrefixOf_cons_ne _ _ (by decide))
  have hz := parseShellC_none (w := "zsh".toList) (l := "eval".toList ++ X) (by
    rw [show ("zsh".toList) = 'z' :: "sh".toList from rfl,
        show ("eval".toList ++ X) = 'e' :: ("val".toList ++ X) from rfl]
    exact isPrefixOf_cons_ne _ _ (by decide))
  unfold parseExec
  rw [hb, hs, hz, if_pos (List.isPrefixOf_iff_prefix.mpr (List.prefix_append _ _))]
  congr 1

theorem noTrailWs_quote_concat (pre inner : List Char) (q1 q2 : Char)
    (hq2 : isQuote q2 = true) :
    noTrailWs (pre ++ (' ' :: (q1 :: (inner ++ [q2])))) = true := by
  have e : pre ++ (' ' :: (q1 :: (inner ++ [q2]))) =
      (pre ++ (' ' :: (q1 :: inner))) ++ [q2] := by simp
  unfold noTrailWs
  rw [e, List.getLast?_concat]
  simp [isQuote_not_space hq2]

/-- The spec's strict reading of the executor shape: "exactly a
shell-executor invocation wrapping a single quoted command string" — after
the executor and whitespace, an opening quote, a nonempty span free of that
same quote character, and the matching closing quote ending the command. -/
def specExecutorWrapStrict (c : List Char) : Bool :=
  let t := trimJS c
  match parseExec t with
  | none => false
  | some r =>
    !(r.takeWhile isSpaceJS).isEmpty &&
    (match r.dropWhile isSpaceJS with
     | q :: rest =>
       isQuote q &&
       (match rest.getLast? with
        | some q2 =>
          q2 = q && !rest.dropLast.isEmpty && rest.dropLast.all (fun ch => ch ≠ q)
        | none => false)
     | [] => false)

/-- C9, counterexample: `"bash -c 'a' 'b'"` is not a shell-executor
invocation wrapping a single quoted string (it wraps two), so the claim
requires `unwrapExecutor` to return it unchanged; the code instead returns
the span between the first and last quote, `a' 'b`. -/
theorem c9_counterexample :
    specExecutorWrapStrict ("bash -c 'a' 'b'".toList) = false ∧
    unwrapShellExecutor ("bash -c 'a' 'b'".toList) = "a' 'b".toList ∧
    "a' 'b".toList ≠ ("bash -c 'a' 'b'".toList) := by
  refine ⟨by decide, by decide, by decide⟩

/-- C9, amended: every call of `unwrapShellExecutor` either returns its
input unchanged, or the trimmed input decomposes as a shell-executor
invocation (`bash`/`sh`/`zsh` `-c`, or `eval`), whitespace, an opening quote
character, a nonempty line-terminator-free span, and a closing quote
character as the final character — the two quotes need not match and the
span may itself contain quote characters — and the result is exactly that
span.  Conversely, every command of that shape (with canonical single-space
executor forms) is unwrapped to its span; only one level is unwrapped per
call. -/
theorem c9_theorem :
    (∀ c : List Char, unwrapShellExecutor c = c ∨
      ExecUnwrapped (trimJS c) (unwrapShellExecutor c)) ∧
    (∀ pre inner : List Char, ∀ q1 q2 : Char, pre ∈ execForms →
      isQuote q1 = true → isQuote q2 = true → inner ≠ [] →
      (∀ ch ∈ inner, isLineTerm ch = false) →
      unwrapShellExecutor (pre ++ (' ' :: (q1 :: (inner ++ [q2])))) = inner) := by
  constructor
  · intro c
    rcases unwrapShellExecutor_spec c with h | ⟨_, h⟩
    · exact Or.inl h
    · exact Or.inr h
  · intro pre inner q1 q2 hpre hq1 hq2 hinner hlt
    simp only [execForms, List.mem_cons, List.not_mem_nil, or_false] at hpre
    rcases hpre with h | h | h | h <;> subst h
    · refine unwrap_of_parse ?_ (parseExec_bashForm _) hq1 hq2 hinner hlt
      refine trimJS_eq_self ?_ (noTrailWs_quote_concat _ _ _ _ hq2)
      rw [show ("bash -c".toList ++ (' ' :: (q1 :: (inner ++ [q2])))) =
        'b' :: ("ash -c".toList ++ (' ' :: (q1 :: (inner ++ [q2])))) from rfl]
      simp [noLeadWs, show isSpaceJS 'b' = false from by decide]
    · refine unwrap_of_parse ?_ (parseExec_shForm _) hq1 hq2 hinner hlt
      refine trimJS_eq_self ?_ (noTrailWs_quote_concat _ _ _ _ hq2)
      rw [show ("sh -c".toList ++ (' ' :: (q1 :: (inner ++ [q2])))) =
        's' :: ("h -c".toList ++ (' ' :: (q1 :: (inner ++ [q2])))) from rfl]
      simp [noLeadWs, show isSpaceJS 's' = false from by decide]
    · refine unwrap_of_parse ?_ (parseExec_zshForm _) hq1 hq2 hinner hlt
      refine trimJS_eq_self ?_ (noTrailWs_quote_concat _ _ _ _ hq2)
      rw [show ("zsh -c".toList ++ (' ' :: (q1 :: (inner ++ [q2])))) =
        'z' :: ("sh -c".toList ++ (' ' :: (q1 :: (inner ++ [q2])))) from rfl]
      simp [noLeadWs, show isSpaceJS 'z' = false from by decide]
    · refine unwrap_of_parse ?_ (parseExec_evalForm _) hq1 hq2 hinner hlt
      refine trimJS_eq_self ?_ (noTrailWs_quote_concat _ _ _ _ hq2)
      rw [show ("eval".toList ++ (' ' :: (q1 :: (inner ++ [q2])))) =
        'e' :: ("val".toList ++ (' ' :: (q1 :: (inner ++ [q2])))) from rfl]
      simp [noLeadWs, show isSpaceJS 'e' = false from by decide]

/-- Witness for C9: the positive direction applies at
`bash -c 'npm run build'`. -/
theorem c9_witness :
    unwrapShellExecutor ("bash -c 'npm run build'".toList) = "npm run build".toList := by
  have h := c9_theorem.2 ("bash -c".toList) ("npm run build".toList) '\'' '\''
    (by simp [execForms]) (by decide) (by decide) (by decide) (by decide)
  rw [show ("bash -c 'npm run build'".toList) =
    ("bash -c".toList ++ (' ' :: ('\'' :: (("npm run build".toList) ++ ['\''])))) from by decide]
  exact h

/-! ### Lemmas about the orchestrator steps -/

theorem CmdVal_truthy_str {c : List Char} (h : c ≠ []) : (CmdVal.str c).truthy = true := by
  simp [CmdVal.truthy, h]

theorem unwrapStep_command {ti : ToolInput} {c : List Char} (hc : ti.command = CmdVal.str c)
    (hne : c ≠ []) :
    (unwrapStep ti).command = CmdVal.str (unwrapShellExecutor c) := by
  unfold unwrapStep
  rw [hc, if_pos (CmdVal_truthy_str hne)]
  simp only []
  by_cases hu : unwrapShellExecutor c = c
  · rw [if_pos hu, hc, hu]
  · rw [if_neg hu]

/-- `unwrapStep` only ever rewrites the command field. -/
theorem unwrapStep_shape (ti : ToolInput) : ∃ cv, unwrapStep ti = { ti with command := cv } := by
  have heta : ti = { ti with command := ti.command } := by cases ti; rfl
  unfold unwrapStep
  split
  · split
    · simp only []
      split
      · exact ⟨ti.command, heta⟩
      · exact ⟨_, rfl⟩
    · exact ⟨ti.command, heta⟩
  · exact ⟨ti.command, heta⟩

theorem commandStep_allowed {ti : ToolInput} {u : List Char}
    (hc : ti.command = CmdVal.str u) (hne : u ≠ [])
    (hall : (splitCompound u).filter (fun cmd => !isAllowedCommand (trimJS cmd)) = []) :
    commandStep ti = (some { blocked := false, isAllowedCommand := true }, ti) := by
  unfold commandStep
  rw [hc, if_pos (CmdVal_truthy_str hne)]
  simp only []
  rw [hall]
  rw [if_pos (by decide)]

theorem commandStep_nonString {ti : ToolInput} (hc : ti.command = CmdVal.other true) :
    commandStep ti = (some { blocked := false, isAllowedCommand := true }, ti) := by
  unfold commandStep
  rw [hc, if_pos (by simp [CmdVal.truthy])]
  simp only [List.filter_nil]
  rw [if_pos (by decide)]

theorem commandStep_narrow {ti : ToolInput} {u : List Char} {subs na : List (List Char)}
    (hc : ti.command = CmdVal.str u) (hne : u ≠ [])
    (hsubs : splitCompound u = subs)
    (hna : subs.filter (fun cmd => !isAllowedCommand (trimJS cmd)) = na)
    (hnane : na ≠ []) (hlt : na.length < subs.length) :
    commandStep ti = (none, { ti with command := CmdVal.str (joinSemi na) }) := by
  unfold commandStep
  rw [hc, if_pos (CmdVal_truthy_str hne)]
  simp only []
  rw [hsubs, hna]
  rw [if_neg (by simpa using hnane), if_pos hlt]

theorem broadStep_skip {cb : Collabs} {toolName : List Char} {cbp : Bool} {ti : ToolInput}
    (hg : toolName ≠ "Glob".toList) (hp : optTruthy ti.pattern = false) :
    broadStep cb toolName cbp ti = none := by
  unfold broadStep
  rw [if_neg (by simp [show toolName ≠ ['G', 'l', 'o', 'b'] from hg, hp])]

theorem pathStep_blocked {cb : Collabs} {ruleLines : List (List Char)} {ti : ToolInput}
    {p : List Char} {mr : MatchResult}
    (hfb : findFirstBlocked (cb.matchPathFn (cb.loadPatternsFn ruleLines)) (cb.extractFn ti) =
      some (p, mr)) :
    pathStep cb ruleLines ti =
      { blocked := true, path := some p, pattern := mr.pattern,
        reason := some (blockedReason mr.pattern) } := by
  unfold pathStep
  simp only []
  have hne : (cb.extractFn ti).isEmpty = false := by
    cases hext : cb.extractFn ti with
    | nil => rw [hext] at hfb; exact absurd hfb (by simp [findFirstBlocked])
    | cons a t => rfl
  rw [if_neg (by simp [hne])]
  rw [hfb]

/-- C5: when every sub-command of the (unwrapped) command classifies as
allowed, `checkScoutBlock` returns not-blocked with the recognized-tooling
flag — for every rule set, collaborator instance, tool name and
broad-pattern option, so no rule loading, breadth check or path extraction
can influence the decision. -/
theorem c5_theorem (cb : Collabs) (ruleLines : List (List Char)) (toolName : List Char)
    (cbp : Bool) (ti : ToolInput) (c : List Char)
    (hc : ti.command = CmdVal.str c) (hne : c ≠ [])
    (hall : (splitCompound (unwrapShellExecutor c)).filter
        (fun cmd => !isAllowedCommand (trimJS cmd)) = []) :
    checkScoutBlock cb ruleLines toolName cbp ti =
      { blocked := false, isAllowedCommand := true } := by
  unfold checkScoutBlock
  rw [commandStep_allowed (unwrapStep_command hc hne) (unwrapShellExecutor_ne_nil hne) hall]

/-- Witness for C5: `"npm run build && npm test"` under a nonempty rule set. -/
theorem c5_witness :
    checkScoutBlock specCollabs [("**/etc/**".toList)] ("Bash".toList) true
      { command := CmdVal.str ("npm run build && npm test".toList) } =
      { blocked := false, isAllowedCommand := true } :=
  c5_theorem specCollabs [("**/etc/**".toList)] ("Bash".toList) true
    { command := CmdVal.str ("npm run build && npm test".toList) }
    ("npm run build && npm test".toList) rfl (by decide) (by decide)

/-- C10, counterexample: an empty-string command is falsy in JS, so the
whole command stage (and its recognized-tooling early return) is skipped:
the guard proceeds to rule loading and path extraction and returns a plain
not-blocked decision without the recognized-tooling flag. -/
theorem c10_counterexample :
    (checkScoutBlock specCollabs [] ("Bash".toList) true
      { command := CmdVal.str [] }).isAllowedCommand = false ∧
    checkScoutBlock specCollabs [] ("Bash".toList) true
      { command := CmdVal.str [] } = { blocked := false } := by
  refine ⟨by decide, by decide⟩

/-- C10, amended: for every command-shaped action whose command value is
truthy and splits into zero sub-commands — a nonempty all-whitespace or
operator-only string (after executor unwrapping), or a truthy non-string
value — `decide` returns allowed with the recognized-tooling flag set,
independently of the collaborators, the rule set, the tool name and the
broad-pattern option.  (A falsy command — the empty string — skips the
command stage instead and falls through to the later checks.) -/
theorem c10_theorem :
    (∀ (cb : Collabs) (ruleLines : List (List Char)) (toolName : List Char) (cbp : Bool)
      (ti : ToolInput) (c : List Char), ti.command = CmdVal.str c → c ≠ [] →
      splitCompound (unwrapShellExecutor c) = [] →
      checkScoutBlock cb ruleLines toolName cbp ti =
        { blocked := false, isAllowedCommand := true }) ∧
    (∀ (cb : Collabs) (ruleLines : List (List Char)) (toolName : List Char) (cbp : Bool)
      (ti : ToolInput), ti.command = CmdVal.other true →
      checkScoutBlock cb ruleLines toolName cbp ti =
        { blocked := false, isAllowedCommand := true }) := by
  constructor
  · intro cb ruleLines toolName cbp ti c hc hne hsplit
    unfold checkScoutBlock
    rw [commandStep_allowed (unwrapStep_command hc hne) (unwrapShellExecutor_ne_nil hne)
      (by rw [hsplit]; rfl)]
  · intro cb ruleLines toolName cbp ti hc
    have h1 : (unwrapStep ti).command = CmdVal.other true := by
      unfold unwrapStep
      rw [hc]
      rw [if_pos (by simp [CmdVal.truthy])]
      exact hc
    unfold checkScoutBlock
    rw [commandStep_nonString h1]

/-- Witness for C10: the whitespace command `" "` and a truthy non-string
command value both return the recognized-tooling allow. -/
theorem c10_witness :
    checkScoutBlock specCollabs [] ("Bash".toList) true
      { command := CmdVal.str (" ".toList) } =
      { blocked := false, isAllowedCommand := true } ∧
    checkScoutBlock specCollabs [] ("Bash".toList) true
      { command := CmdVal.other true } =
      { blocked := false, isAllowedCommand := true } :=
  ⟨c10_theorem.1 specCollabs [] ("Bash".toList) true
      { command := CmdVal.str (" ".toList) } (" ".toList) rfl (by decide) (by decide),
   c10_theorem.2 specCollabs [] ("Bash".toList) true
      { command := CmdVal.other true } rfl⟩

/-- C2, counterexample: empty input to the host-facing wrapper does not fail
open — the hook prints `ERROR: Empty input` and exits 2, for any parser. -/
theorem c2_counterexample :
    scoutBlockHook (fun _ => none) specCollabs [] [] = 2 := by decide

/-- C2, amended: nonblank input that fails to parse as JSON, or parses to a
payload without a `tool_input` object, fails open (exit 0); empty or
whitespace-only input instead exits 2. -/
theorem c2_theorem (parse : List Char → Option HookData) (cb : Collabs)
    (ruleLines : List (List Char)) (input : List Char)
    (hne : input ≠ []) (htr : trimJS input ≠ [])
    (h : parse input = none ∨ ∃ d, parse input = some d ∧ d.tool_input = none) :
    scoutBlockHook parse cb ruleLines input = 0 := by
  unfold scoutBlockHook
  rw [if_neg (by simp [hne, htr])]
  rcases h with h | ⟨d, hd, hti⟩
  · rw [h]
  · rw [hd]
    simp only []
    rw [hti]

/-- Witness for C2: a non-JSON input under a failing parser, and a payload
lacking `tool_input` under a succeeding parser, both exit 0. -/
theorem c2_witness :
    scoutBlockHook (fun _ => none) specCollabs [] ("not json".toList) = 0 ∧
    scoutBlockHook (fun _ => some { tool_input := none, tool_name := none }) specCollabs []
      ("x".toList) = 0 :=
  ⟨c2_theorem (fun _ => none) specCollabs [] ("not json".toList) (by decide) (by decide)
      (Or.inl rfl),
   c2_theorem (fun _ => some { tool_input := none, tool_name := none }) specCollabs []
      ("x".toList) (by decide) (by decide)
      (Or.inr ⟨{ tool_input := none, tool_name := none }, rfl, rfl⟩)⟩

theorem joinSemi_singleton (b : List Char) : joinSemi [b] = b := rfl

theorem update_command_unwrapStep (ti : ToolInput) (x : CmdVal) :
    { unwrapStep ti with command := x } = { ti with command := x } := by
  rcases unwrapStep_shape ti with ⟨cv, hcv⟩
  rw [hcv]

/-- C1: a command that splits into an allowed sub-command followed by a
non-allowed one is narrowed to the non-allowed sub-command, and when path
extraction over the narrowed input produces a path that the rule matcher
blocks, `decide` returns blocked with that path and the deciding rule — the
allow-grammar match on the leading sub-command never masks the trailing one.
(Spec-modelled collaborators: pattern matcher and path extractor are not in
the snapshot.) -/
theorem c1_theorem (ruleLines : List (List Char)) (toolName : List Char) (ti : ToolInput)
    (a b c p : List Char) (mr : MatchResult)
    (hc : ti.command = CmdVal.str c) (hcne : c ≠ [])
    (hu : unwrapShellExecutor c = c)
    (hsplit : splitCompound c = [a, b])
    (ha : isAllowedCommand (trimJS a) = true)
    (hb : isAllowedCommand (trimJS b) = false)
    (hg : toolName ≠ "Glob".toList)
    (hp : optTruthy ti.pattern = false)
    (hfb : findFirstBlocked (specCollabs.matchPathFn (specCollabs.loadPatternsFn ruleLines))
        (specCollabs.extractFn { ti with command := CmdVal.str b }) = some (p, mr)) :
    checkScoutBlock specCollabs ruleLines toolName true ti =
      { blocked := true, path := some p, pattern := mr.pattern,
        reason := some (blockedReason mr.pattern) } := by
  have hstep1 : (unwrapStep ti).command = CmdVal.str c := by
    rw [unwrapStep_command hc hcne, hu]
  have hna : ([a, b]).filter (fun cmd => !isAllowedCommand (trimJS cmd)) = [b] := by
    simp [List.filter, ha, hb]
  have hcs := commandStep_narrow hstep1 hcne hsplit hna (by simp) (by simp)
  unfold checkScoutBlock
  rw [hcs]
  simp only []
  rw [update_command_unwrapStep, joinSemi_singleton]
  rw [broadStep_skip hg (by exact hp)]
  exact pathStep_blocked hfb

/-- Witness for C1: the spec's concrete narrowing example — the command
`"npm run build && cat ../../etc/secrets"` under the rule `**/etc/**` is
blocked on `../../etc/secrets` by that rule. -/
theorem c1_witness :
    checkScoutBlock specCollabs [("**/etc/**".toList)] ("Bash".toList) true
      { command := CmdVal.str ("npm run build && cat ../../etc/secrets".toList) } =
      { blocked := true, path := some ("../../etc/secrets".toList),
        pattern := some ("**/etc/**".toList),
        reason := some ("Path matches blocked pattern: **/etc/**".toList) } := by
  have h := c1_theorem [("**/etc/**".toList)] ("Bash".toList)
    { command := CmdVal.str ("npm run build && cat ../../etc/secrets".toList) }
    ("npm run build".toList) ("cat ../../etc/secrets".toList)
    ("npm run build && cat ../../etc/secrets".toList)
    ("../../etc/secrets".toList)
    { blocked := true, pattern := some ("**/etc/**".toList) }
    rfl (by decide) (by decide) (by decide) (by decide) (by decide) (by decide) (by decide)
    (by decide)
  exact h

/-! ### C8: narrowing does not re-expand -/

theorem length_dropWhile_le' (p : Char → Bool) (l : List Char) :
    (l.dropWhile p).length ≤ l.length := by
  induction l with
  | nil => simp
  | cons a t ih =>
    rw [List.dropWhile_cons]
    split
    · exact Nat.le_succ_of_le ih
    · exact le_rfl

theorem opLen_cons_none_iff (c : Char) (t : List Char) :
    opLen (c :: t) = none ↔
      ¬(c = '&' ∧ t.head? = some '&') ∧ ¬(c = '|' ∧ t.head? = some '|') ∧ c ≠ ';' := by
  unfold opLen
  simp only []
  split_ifs with h1 h2 h3
  · rw [Bool.and_eq_true, decide_eq_true_iff, decide_eq_true_iff] at h1
    simp [h1]
  · rw [Bool.and_eq_true, decide_eq_true_iff, decide_eq_true_iff] at h2
    simp [h2]
  · simp [h3]
  · simp only [Bool.and_eq_true, decide_eq_true_iff] at h1 h2
    simp [h1, h2, h3]

theorem opLen_append_none {c : Char} {y z : List Char}
    (h : opLen ((c :: y) ++ z) = none) : opLen (c :: y) = none := by
  rw [List.cons_append, opLen_cons_none_iff] at h
  rw [opLen_cons_none_iff]
  obtain ⟨h1, h2, h3⟩ := h
  refine ⟨?_, ?_, h3⟩
  · rintro ⟨rfl, hy⟩
    refine h1 ⟨rfl, ?_⟩
    cases y with
    | nil => simp at hy
    | cons d t => simpa using hy
  · rintro ⟨rfl, hy⟩
    refine h2 ⟨rfl, ?_⟩
    cases y with
    | nil => simp at hy
    | cons d t => simpa using hy

theorem opLen_extend_space {c : Char} {y Y : List Char} (h : opLen (c :: y) = none) :
    opLen (c :: (y ++ (' ' :: Y))) = none := by
  rw [opLen_cons_none_iff] at h ⊢
  obtain ⟨h1, h2, h3⟩ := h
  refine ⟨?_, ?_, h3⟩
  · rintro ⟨rfl, hy⟩
    cases y with
    | nil => simp at hy
    | cons d t => exact h1 ⟨rfl, by simpa using hy⟩
  · rintro ⟨rfl, hy⟩
    cases y with
    | nil => simp at hy
    | cons d t => exact h2 ⟨rfl, by simpa using hy⟩

theorem splitOnce_cons_none {c : Char} {t : List Char} (h : splitOnce (c :: t) = none) :
    opLen (c :: t) = none ∧ splitOnce t = none := by
  unfold splitOnce at h
  cases hop : opLen (c :: t) with
  | some n => rw [hop] at h; simp at h
  | none =>
    rw [hop] at h
    cases hrec : splitOnce t with
    | none => exact ⟨rfl, rfl⟩
    | some ar =>
      rcases ar with ⟨a, r⟩
      rw [hrec] at h
      simp at h

theorem opLen_pos {l : List Char} {n : Nat} (h : opLen l = some n) : 1 ≤ n := by
  cases l with
  | nil => simp [opLen] at h
  | cons c t =>
    unfold opLen at h
    simp only [] at h
    split_ifs at h <;> injection h with h <;> omega

theorem splitOnce_length : ∀ {l a r : List Char}, splitOnce l = some (a, r) →
    r.length < l.length := by
  intro l
  induction l with
  | nil => intro a r h; simp [splitOnce] at h
  | cons c t ih =>
    intro a r h
    unfold splitOnce at h
    cases hop : opLen (c :: t) with
    | some n =>
      rw [hop] at h
      simp only [Option.some.injEq, Prod.mk.injEq] at h
      obtain ⟨_, hr⟩ := h
      have h1 : (((c :: t).drop n).dropWhile isSpaceJS).length ≤ ((c :: t).drop n).length :=
        length_dropWhile_le' _ _
      have h2 : ((c :: t).drop n).length = (c :: t).length - n := List.length_drop n _
      have h3 := opLen_pos hop
      rw [← hr] at *
      simp only [List.length_cons] at *
      omega
    | none =>
      rw [hop] at h
      cases hrec : splitOnce t with
      | none => rw [hrec] at h; simp at h
      | some ar =>
        rcases ar with ⟨a2, r2⟩
        rw [hrec] at h
        simp only [Option.some.injEq, Prod.mk.injEq] at h
        obtain ⟨_, hr⟩ := h
        have := ih hrec
        rw [← hr]
        simp only [List.length_cons]
        omega

theorem splitOnce_decomp : ∀ {l a r : List Char}, splitOnce l = some (a, r) →
    ∃ mid, l = a ++ mid := by
  intro l
  induction l with
  | nil => intro a r h; simp [splitOnce] at h
  | cons c t ih =>
    intro a r h
    unfold splitOnce at h
    cases hop : opLen (c :: t) with
    | some n =>
      rw [hop] at h
      simp only [Option.some.injEq, Prod.mk.injEq] at h
      obtain ⟨ha, _⟩ := h
      exact ⟨c :: t, by rw [← ha]; rfl⟩
    | none =>
      rw [hop] at h
      cases hrec : splitOnce t with
      | none => rw [hrec] at h; simp at h
      | some ar =>
        rcases ar with ⟨a2, r2⟩
        rw [hrec] at h
        simp only [Option.some.injEq, Prod.mk.injEq] at h
        obtain ⟨ha, _⟩ := h
        rcases ih hrec with ⟨mid, hmid⟩
        exact ⟨mid, by rw [← ha, List.cons_append, ← hmid]⟩

theorem splitOnce_piece_none : ∀ {l a r : List Char}, splitOnce l = some (a, r) →
    splitOnce a = none := by
  intro l
  induction l with
  | nil => intro a r h; simp [splitOnce] at h
  | cons c t ih =>
    intro a r h
    unfold splitOnce at h
    cases hop : opLen (c :: t) with
    | some n =>
      rw [hop] at h
      simp only [Option.some.injEq, Prod.mk.injEq] at h
      obtain ⟨ha, _⟩ := h
      rw [← ha]
      rfl
    | none =>
      rw [hop] at h
      cases hrec : splitOnce t with
      | none => rw [hrec] at h; simp at h
      | some ar =>
        rcases ar with ⟨a2, r2⟩
        rw [hrec] at h
        simp only [Option.some.injEq, Prod.mk.injEq] at h
        obtain ⟨ha, _⟩ := h
        have ha2 : splitOnce a2 = none := ih hrec
        rcases splitOnce_decomp hrec with ⟨mid, hmid⟩
        have hopa : opLen (c :: a2) = none := by
          apply opLen_append_none (z := mid)
          rw [List.cons_append, ← hmid]
          exact hop
        rw [← ha]
        unfold splitOnce
        rw [hopa, ha2]

theorem splitOnce_rest_noLead : ∀ {l a r : List Char}, splitOnce l = some (a, r) →
    noLeadWs r = true := by
  intro l
  induction l with
  | nil => intro a r h; simp [splitOnce] at h
  | cons c t ih =>
    intro a r h
    unfold splitOnce at h
    cases hop : opLen (c :: t) with
    | some n =>
      rw [hop] at h
      simp only [Option.some.injEq, Prod.mk.injEq] at h
      obtain ⟨_, hr⟩ := h
      rw [← hr]
      exact noLeadWs_dropWhile _
    | none =>
      rw [hop] at h
      cases hrec : splitOnce t with
      | none => rw [hrec] at h; simp at h
      | some ar =>
        rcases ar with ⟨a2, r2⟩
        rw [hrec] at h
        simp only [Option.some.injEq, Prod.mk.injEq] at h
        obtain ⟨_, hr⟩ := h
        rw [← hr]
        exact ih hrec

theorem splitOnce_head : ∀ {l a r : List Char}, splitOnce l = some (a, r) →
    a.head? = l.head? ∨ a = [] := by
  intro l
  induction l with
  | nil => intro a r h; simp [splitOnce] at h
  | cons c t ih =>
    intro a r h
    unfold splitOnce at h
    cases hop : opLen (c :: t) with
    | some n =>
      rw [hop] at h
      simp only [Option.some.injEq, Prod.mk.injEq] at h
      exact Or.inr h.1.symm
    | none =>
      rw [hop] at h
      cases hrec : splitOnce t with
      | none => rw [hrec] at h; simp at h
      | some ar =>
        rcases ar with ⟨a2, r2⟩
        rw [hrec] at h
        simp only [Option.some.injEq, Prod.mk.injEq] at h
        obtain ⟨ha, _⟩ := h
        left
        rw [← ha]
        rfl

theorem splitOnce_append_none : ∀ {y z : List Char}, splitOnce (y ++ z) = none →
    splitOnce y = none := by
  intro y
  induction y with
  | nil => intro z _; rfl
  | cons c y2 ih =>
    intro z h
    rw [List.cons_append] at h
    obtain ⟨hop, hrec⟩ := splitOnce_cons_none h
    have hop2 : opLen (c :: y2) = none := opLen_append_none (by rw [List.cons_append]; exact hop)
    have hrec2 : splitOnce y2 = none := ih hrec
    unfold splitOnce
    rw [hop2, hrec2]

theorem rawSplitF_fuel : ∀ (f1 f2 : Nat) (l : List Char), l.length < f1 → l.length < f2 →
    rawSplitF f1 l = rawSplitF f2 l := by
  intro f1
  induction f1 with
  | zero => intro f2 l h1 _; exact absurd h1 (Nat.not_lt_zero _)
  | succ g ih =>
    intro f2 l h1 h2
    cases f2 with
    | zero => exact absurd h2 (Nat.not_lt_zero _)
    | succ k =>
      simp only [rawSplitF]
      cases hso : splitOnce l with
      | none => rfl
      | some ar =>
        rcases ar with ⟨a, r⟩
        have hlen := splitOnce_length hso
        simp only []
        rw [ih k r (by omega) (by omega)]

theorem rawSplitF_ne_nil (f : Nat) (l : List Char) : rawSplitF f l ≠ [] := by
  cases f with
  | zero => simp [rawSplitF]
  | succ g =>
    unfold rawSplitF
    cases splitOnce l with
    | none => simp
    | some ar => rcases ar with ⟨a, r⟩; simp

theorem rawSplit_some {l a r : List Char} (hso : splitOnce l = some (a, r)) :
    rawSplitF (l.length + 1) l = dropTrailWs a :: rawSplitF (r.length + 1) r := by
  have h1 : rawSplitF (l.length + 1) l = dropTrailWs a :: rawSplitF l.length r := by
    conv_lhs => unfold rawSplitF
    rw [hso]
  rw [h1, rawSplitF_fuel l.length (r.length + 1) r (splitOnce_length hso) (by omega)]

theorem rawSplit_none {l : List Char} (hso : splitOnce l = none) :
    rawSplitF (l.length + 1) l = [l] := by
  unfold rawSplitF
  rw [hso]

theorem noLeadWs_congr {x y : List Char} (h : x.head? = y.head?) :
    noLeadWs x = noLeadWs y := by
  unfold noLeadWs
  rw [h]

/-- Structural invariants of the raw split: every piece is operator-free;
every piece but the last has no trailing whitespace; every piece but the
first has no leading whitespace (and the first also has none when the input
has none). -/
theorem rawSplit_inv : ∀ (n : Nat) (l : List Char), l.length ≤ n →
    (∀ p ∈ rawSplitF (l.length + 1) l, splitOnce p = none) ∧
    (∀ p ∈ (rawSplitF (l.length + 1) l).dropLast, noTrailWs p = true) ∧
    (∀ p ∈ (rawSplitF (l.length + 1) l).tail, noLeadWs p = true) ∧
    (noLeadWs l = true → ∀ p ∈ rawSplitF (l.length + 1) l, noLeadWs p = true) := by
  intro n
  induction n with
  | zero =>
    intro l hl
    have hnil : l = [] := List.length_eq_zero.mp (Nat.le_zero.mp hl)
    subst hnil
    refine ⟨?_, ?_, ?_, ?_⟩ <;> intro p hp <;> simp_all [rawSplitF, splitOnce, noLeadWs]
  | succ m ih =>
    intro l hl
    cases hso : splitOnce l with
    | none =>
      rw [rawSplit_none hso]
      refine ⟨?_, ?_, ?_, ?_⟩
      · intro p hp
        rw [List.mem_singleton.mp hp]
        exact hso
      · intro p hp
        simp at hp
      · intro p hp
        simp at hp
      · intro hle p hp
        rw [List.mem_singleton.mp hp]
        exact hle
    | some ar =>
      rcases ar with ⟨a, r⟩
      rw [rawSplit_some hso]
      have hrlen : r.length < l.length := splitOnce_length hso
      obtain ⟨ih1, ih2, ih3, ih4⟩ := ih r (by omega)
      have hanone : splitOnce (dropTrailWs a) = none := by
        apply splitOnce_append_none (z := (a.reverse.takeWhile isSpaceJS).reverse)
        rw [dropTrailWs_append a]
        exact splitOnce_piece_none hso
      have hallr : ∀ p ∈ rawSplitF (r.length + 1) r, noLeadWs p = true :=
        ih4 (splitOnce_rest_noLead hso)
      refine ⟨?_, ?_, ?_, ?_⟩
      · intro p hp
        rcases List.mem_cons.mp hp with rfl | hp2
        · exact hanone
        · exact ih1 p hp2
      · intro p hp
        rw [List.dropLast_cons_of_ne_nil (rawSplitF_ne_nil _ _)] at hp
        rcases List.mem_cons.mp hp with rfl | hp2
        · exact noTrailWs_dropTrailWs a
        · exact ih2 p hp2
      · intro p hp
        exact hallr p hp
      · intro hlead p hp
        rcases List.mem_cons.mp hp with rfl | hp2
        · rcases splitOnce_head hso with hh | rfl
          · apply noLeadWs_dropTrailWs
            rw [noLeadWs_congr hh]
            exact hlead
          · rfl
        · exact hallr p hp2

theorem mem_tail_filter {f : List Char → Bool} {l : List (List Char)} {x : List Char}
    (h : x ∈ (l.filter f).tail) : x ∈ l.tail := by
  cases l with
  | nil => simp [List.filter] at h
  | cons a t =>
    rw [List.filter_cons] at h
    by_cases hfa : f a = true
    · rw [if_pos hfa] at h
      simp only [List.tail_cons] at h
      exact List.mem_of_mem_filter h
    · rw [if_neg hfa] at h
      exact List.mem_of_mem_filter (List.mem_of_mem_tail h)

theorem mem_dropLast_filter {f : List Char → Bool} {l : List (List Char)} {x : List Char}
    (h : x ∈ (l.filter f).dropLast) : x ∈ l.dropLast := by
  have h1 : x ∈ (l.filter f).reverse.tail := by
    rw [List.tail_reverse, List.mem_reverse]
    exact h
  rw [← List.filter_reverse] at h1
  have h2 : x ∈ l.reverse.tail := mem_tail_filter h1
  rw [List.tail_reverse, List.mem_reverse] at h2
  exact h2

theorem keepPiece_ne_nil {q : List Char} (h : keepPiece q = true) : q ≠ [] := by
  intro he
  subst he
  simp [keepPiece] at h

theorem joinSemi_head (q : List Char) (t : List (List Char)) (hq : q ≠ []) :
    (joinSemi (q :: t)).head? = q.head? := by
  cases t with
  | nil => rfl
  | cons q2 t2 =>
    show (q ++ _).head? = q.head?
    cases q with
    | nil => exact absurd rfl hq
    | cons c cs => rfl

theorem dropTrailWs_concat_space (p : List Char) :
    dropTrailWs (p ++ [' ']) = dropTrailWs p := by
  unfold dropTrailWs
  rw [List.reverse_append]
  simp only [List.reverse_cons, List.reverse_nil, List.nil_append, List.singleton_append]
  rw [List.dropWhile_cons_of_pos (by decide)]

/-- The first split point of an operator-free piece joined with `" ; "` and
a remainder sits exactly at the inserted `;`. -/
theorem splitOnce_join {p : List Char} (J : List Char) (hp : splitOnce p = none) :
    splitOnce (p ++ (' ' :: (';' :: (' ' :: J)))) =
      some (p ++ [' '], (' ' :: J).dropWhile isSpaceJS) := by
  induction p with
  | nil => rfl
  | cons c p2 ih =>
    obtain ⟨hop, hrec⟩ := splitOnce_cons_none hp
    have hop2 : opLen (c :: (p2 ++ (' ' :: (';' :: (' ' :: J))))) = none :=
      opLen_extend_space hop
    have ih2 := ih hrec
    rw [List.cons_append]
    unfold splitOnce
    rw [hop2, ih2]
    rfl

/-- Re-splitting the `" ; "`-join of pieces that are operator-free,
non-blank, trailing-whitespace-free except the last and leading-whitespace-
free except the first recovers exactly those pieces. -/
theorem join_split_inv : ∀ ps : List (List Char),
    (∀ p ∈ ps, splitOnce p = none) →
    (∀ p ∈ ps, keepPiece p = true) →
    (∀ p ∈ ps.dropLast, noTrailWs p = true) →
    (∀ p ∈ ps.tail, noLeadWs p = true) →
    splitCompound (joinSemi ps) = ps := by
  intro ps
  induction ps with
  | nil => intro _ _ _ _; rfl
  | cons p t ih =>
    intro hop hkeep htrail hlead
    cases t with
    | nil =>
      show splitCompound p = [p]
      unfold splitCompound
      rw [rawSplit_none (hop p (by simp))]
      simp [List.filter_cons, hkeep p (by simp)]
    | cons q t2 =>
      have hq_ne : q ≠ [] := keepPiece_ne_nil (hkeep q (by simp))
      have hq_lead : noLeadWs q = true := hlead q (by simp)
      have hJlead : noLeadWs (joinSemi (q :: t2)) = true := by
        rw [noLeadWs_congr (joinSemi_head q t2 hq_ne)]
        exact hq_lead
      have hdropJ : (' ' :: joinSemi (q :: t2)).dropWhile isSpaceJS = joinSemi (q :: t2) := by
        rw [List.dropWhile_cons_of_pos (by decide)]
        apply dropWhile_eq_self_of_head
        intro ch hch
        unfold noLeadWs at hJlead
        cases hh : (joinSemi (q :: t2)).head? with
        | none => rw [hh] at hch; simp at hch
        | some d =>
          rw [hh] at hch hJlead
          rw [Option.mem_def, Option.some.injEq] at hch
          subst hch
          simpa using hJlead
      have hsplit := splitOnce_join (joinSemi (q :: t2)) (hop p (by simp))
      rw [hdropJ] at hsplit
      have hptrail : noTrailWs p = true := htrail p (by simp)
      have hdp : dropTrailWs (p ++ [' ']) = p := by
        rw [dropTrailWs_concat_space]
        exact dropTrailWs_eq_self hptrail
      have hIH : splitCompound (joinSemi (q :: t2)) = q :: t2 := by
        apply ih
        · intro x hx; exact hop x (List.mem_cons_of_mem _ hx)
        · intro x hx; exact hkeep x (List.mem_cons_of_mem _ hx)
        · intro x hx
          exact htrail x (show x ∈ p :: (q :: t2).dropLast from List.mem_cons_of_mem _ hx)
        · intro x hx
          exact hlead x (List.mem_cons_of_mem _ hx)
      show splitCompound (p ++ (' ' :: (';' :: (' ' :: joinSemi (q :: t2))))) = p :: q :: t2
      unfold splitCompound
      rw [rawSplit_some hsplit, hdp]
      rw [List.filter_cons, if_pos (hkeep p (by simp))]
      unfold splitCompound at hIH
      rw [hIH]

theorem filter_idem {f : List Char → Bool} (l : List (List Char)) :
    (l.filter f).filter f = l.filter f := by
  induction l with
  | nil => rfl
  | cons a t ih =>
    rw [List.filter_cons]
    by_cases hfa : f a = true
    · rw [if_pos hfa, List.filter_cons, if_pos hfa, ih]
    · rw [if_neg hfa, ih]

/-- C8: narrowing does not re-expand — for every command, re-splitting the
`' ; '`-rejoin of the non-allowed sub-commands yields exactly those
sub-commands again, and filtering them again by the same classification
changes nothing (no sub-command gains or loses allowed status and no new
sub-commands appear). -/
theorem c8_theorem (c : List Char) :
    splitCompound (joinSemi ((splitCompound c).filter
        (fun cmd => !isAllowedCommand (trimJS cmd)))) =
      (splitCompound c).filter (fun cmd => !isAllowedCommand (trimJS cmd)) ∧
    ((splitCompound c).filter (fun cmd => !isAllowedCommand (trimJS cmd))).filter
        (fun cmd => !isAllowedCommand (trimJS cmd)) =
      (splitCompound c).filter (fun cmd => !isAllowedCommand (trimJS cmd)) := by
  obtain ⟨i1, i2, i3, _⟩ := rawSplit_inv c.length c le_rfl
  have hsc : splitCompound c = (rawSplitF (c.length + 1) c).filter keepPiece := rfl
  rw [hsc]
  constructor
  · apply join_split_inv
    · intro p hp
      exact i1 p (List.mem_of_mem_filter (List.mem_of_mem_filter hp))
    · intro p hp
      exact List.of_mem_filter (List.mem_of_mem_filter hp)
    · intro p hp
      exact i2 p (mem_dropLast_filter (mem_dropLast_filter hp))
    · intro p hp
      exact i3 p (mem_tail_filter (mem_tail_filter hp))
  · exact filter_idem _

/-! ### C4: the allow-grammar read token-wise

`isAllowedCommand` tests its four regexes against the normalized command as
raw text.  The claim reads the grammar over the command's *leading token
sequence*; the definitions below render that reading.  `specAllowedStrict`
is the claim as written (verbs and tool names are whole tokens);
`specAllowedAmended` is the reading the code actually implements (verbs and
tool names match as mere prefixes of a token, and the venv-executable shape
may occur anywhere in the text). -/

theorem bool_eq_of_iff {a b : Bool} (h : a = true ↔ b = true) : a = b := by
  cases a <;> cases b <;> simp_all

theorem any_congr' {α : Type} {p q : α → Bool} (l : List α) (h : ∀ a ∈ l, p a = q a) :
    l.any p = l.any q := by
  induction l with
  | nil => rfl
  | cons a t ih =>
    simp only [List.any_cons]
    rw [h a (by simp), ih (fun b hb => h b (by simp [hb]))]

/-- A JS whitespace character is never a `[\w.]` character. -/
theorem space_not_wordDot {c : Char} (h : isSpaceJS c = true) : isWordDotJS c = false := by
  unfold isSpaceJS at h
  simp only [Bool.or_eq_true, decide_eq_true_eq] at h
  rcases h with ((((((((h|h)|h)|h)|h)|h)|h)|h)|h)|h <;> subst h <;> decide

theorem noLeadWs_head {l : List Char} (hnl : noLeadWs l = true) :
    ∀ c ∈ l.head?, isSpaceJS c = false := by
  intro c hc
  unfold noLeadWs at hnl
  rw [Option.mem_def] at hc
  rw [hc] at hnl
  simpa using hnl

theorem getLast?_append_right {l₁ l₂ : List Char} (h : l₂ ≠ []) :
    (l₁ ++ l₂).getLast? = l₂.getLast? := by
  rw [← head?_reverse', ← head?_reverse', List.reverse_append]
  cases hr : l₂.reverse with
  | nil => exact absurd (List.reverse_eq_nil_iff.mp hr) h
  | cons b bs => simp

theorem noTrailWs_suffix {l s : List Char} (h : s <:+ l) (hl : noTrailWs l = true) :
    noTrailWs s = true := by
  obtain ⟨pre, rfl⟩ := h
  cases hs : s with
  | nil => rfl
  | cons a t =>
    unfold noTrailWs at hl ⊢
    rw [getLast?_append_right (by simp [hs])] at hl
    rw [← hs]
    exact hl

/-- A whole-word head: if `w` is a prefix of `l` and every character of `w`
satisfies `p`, then the maximal `p`-run of `l` starts with `w` and the
`p`-split of `l` is the `p`-split of the remainder. -/
theorem takeWhile_head_of_isPrefixOf {p : Char → Bool} {w : List Char} :
    ∀ {l : List Char}, w.all p = true → w.isPrefixOf l = true →
      l.takeWhile p = w ++ (l.drop w.length).takeWhile p ∧
      l.dropWhile p = (l.drop w.length).dropWhile p := by
  induction w with
  | nil => intro l _ _; simp
  | cons a w' ih =>
    intro l hw hp
    cases l with
    | nil => simp [List.isPrefixOf] at hp
    | cons c t =>
      simp only [List.isPrefixOf, Bool.and_eq_true, beq_iff_eq] at hp
      obtain ⟨rfl, hp'⟩ := hp
      simp only [List.all_cons, Bool.and_eq_true] at hw
      obtain ⟨ha, hw'⟩ := hw
      have iht := ih hw' hp'
      constructor
      · rw [List.takeWhile_cons, if_pos ha, List.length_cons, List.drop_succ_cons,
          iht.1, List.cons_append]
      · rw [List.dropWhile_cons, if_pos ha, List.length_cons, List.drop_succ_cons, iht.2]

theorem takeWhile_isPrefixOf (p : Char → Bool) (l : List Char) :
    (l.takeWhile p).isPrefixOf l = true := by
  rw [ List.isPrefixOf_iff_prefix]
  exact List.takeWhile_prefix p

/-- A word of `p`-characters is a prefix of `l` iff it is a prefix of `l`'s
maximal leading `p`-run. -/
theorem isPrefixOf_takeWhile {p : Char → Bool} {w l : List Char} (hw : w.all p = true) :
    w.isPrefixOf l = w.isPrefixOf (l.takeWhile p) := by
  apply bool_eq_of_iff
  constructor
  · intro hp
    obtain ⟨ht, _⟩ := takeWhile_head_of_isPrefixOf hw hp
    rw [ List.isPrefixOf_iff_prefix]
    exact ⟨(l.drop w.length).takeWhile p, ht.symm⟩
  · intro hp
    rw [ List.isPrefixOf_iff_prefix] at hp ⊢
    exact hp.trans (List.takeWhile_prefix p)

theorem any_isPrefixOf_takeWhile {ws : List (List Char)} {l : List Char}
    (hws : ws.all (fun w => w.all fun c => !isSpaceJS c) = true) :
    (ws.any fun w => w.isPrefixOf l) =
      (ws.any fun w => w.isPrefixOf (l.takeWhile (fun c => !isSpaceJS c))) := by
  induction ws with
  | nil => rfl
  | cons w ws ih =>
    simp only [List.all_cons, Bool.and_eq_true] at hws
    simp only [List.any_cons]
    rw [isPrefixOf_takeWhile hws.1, ih hws.2]

/-- A safe verb occurs at the head of `l` iff it occurs at the head of `l`'s
first whitespace-delimited token (verbs contain no whitespace). -/
theorem startsWithVerb_takeWhile (l : List Char) :
    startsWithVerb l = startsWithVerb (l.takeWhile (fun c => !isSpaceJS c)) := by
  unfold startsWithVerb
  exact any_isPrefixOf_takeWhile (by decide)

theorem wsTokensF_fuel : ∀ (f1 f2 : Nat) (l : List Char), l.length < f1 → l.length < f2 →
    wsTokensF f1 l = wsTokensF f2 l := by
  intro f1
  induction f1 with
  | zero => intro f2 l h1 _; exact absurd h1 (Nat.not_lt_zero _)
  | succ g ih =>
    intro f2 l h1 h2
    cases f2 with
    | zero => exact absurd h2 (Nat.not_lt_zero _)
    | succ k =>
      simp only [wsTokensF]
      cases hdw : l.dropWhile isSpaceJS with
      | nil => rfl
      | cons c t =>
        simp only []
        have hct : (c :: t).length ≤ l.length := by
          rw [← hdw]; exact length_dropWhile_le' isSpaceJS l
        have hc : isSpaceJS c = false :=
          head?_dropWhile_false isSpaceJS l c (by simp [hdw])
        have hred : (c :: t).dropWhile (fun c => !isSpaceJS c) = t.dropWhile (fun c => !isSpaceJS c) := by
          rw [List.dropWhile_cons, if_pos (by simp [hc])]
        have hrl : ((c :: t).dropWhile (fun c => !isSpaceJS c)).length ≤ t.length := by
          rw [hred]; exact length_dropWhile_le' _ t
        rw [ih k _ (by simp at hct; omega) (by simp at hct; omega)]

theorem wsTokens_cons {l : List Char} (hne : l ≠ []) (hnl : noLeadWs l = true) :
    wsTokens l = l.takeWhile (fun c => !isSpaceJS c) ::
      wsTokens (l.dropWhile (fun c => !isSpaceJS c)) := by
  unfold wsTokens
  conv_lhs => unfold wsTokensF
  rw [dropWhile_eq_self_of_head (noLeadWs_head hnl)]
  cases l with
  | nil => exact absurd rfl hne
  | cons a t =>
    simp only []
    congr 1
    have ha : isSpaceJS a = false := noLeadWs_head hnl a (by simp)
    have hlen : ((a :: t).dropWhile (fun c => !isSpaceJS c)).length ≤ t.length := by
      rw [List.dropWhile_cons, if_pos (by simp [ha])]
      exact length_dropWhile_le' _ t
    exact wsTokensF_fuel _ _ _ (by simp; omega) (by omega)

/-- Leading whitespace does not affect tokenization. -/
theorem wsTokens_dropWhile_ws (l : List Char) :
    wsTokens (l.dropWhile isSpaceJS) = wsTokens l := by
  unfold wsTokens
  conv_lhs => unfold wsTokensF
  conv_rhs => unfold wsTokensF
  rw [dropWhile_eq_self_of_head (head?_dropWhile_false isSpaceJS l)]
  cases hdw : l.dropWhile isSpaceJS with
  | nil => rfl
  | cons c t =>
    simp only []
    congr 1
    have hct : (c :: t).length ≤ l.length := by
      rw [← hdw]; exact length_dropWhile_le' isSpaceJS l
    have hc : isSpaceJS c = false :=
      head?_dropWhile_false isSpaceJS l c (by simp [hdw])
    have hlen : ((c :: t).dropWhile (fun c => !isSpaceJS c)).length ≤ t.length := by
      rw [List.dropWhile_cons, if_pos (by simp [hc])]
      exact length_dropWhile_le' _ t
    exact wsTokensF_fuel _ _ _ (by simp; omega) (by simp at hct; omega)

/-- On a string with no trailing whitespace, the text after the first token
is nonempty exactly when it holds a further token. -/
theorem rest_tokens_isEmpty {m : List Char} (hnt : noTrailWs m = true) :
    (wsTokens (m.dropWhile (fun c => !isSpaceJS c))).isEmpty =
      (m.dropWhile (fun c => !isSpaceJS c)).isEmpty := by
  cases hdm : m.dropWhile (fun c => !isSpaceJS c) with
  | nil => rfl
  | cons c s =>
    have hc : isSpaceJS c = true := by
      have := head?_dropWhile_false (fun c => !isSpaceJS c) m c (by simp [hdm])
      simpa using this
    have hsuf : (c :: s) <:+ m := hdm ▸ List.dropWhile_suffix _
    have hnt2 : noTrailWs (c :: s) = true := noTrailWs_suffix hsuf hnt
    have hne : (c :: s).dropWhile isSpaceJS ≠ [] := by
      intro hnil
      rw [List.dropWhile_eq_nil_iff] at hnil
      cases hrev : (c :: s).reverse with
      | nil => simp at hrev
      | cons y ys =>
        have hy : y ∈ c :: s := by
          rw [← List.mem_reverse, hrev]; simp
        have hys : isSpaceJS y = true := hnil y hy
        unfold noTrailWs at hnt2
        rw [← head?_reverse', hrev] at hnt2
        simp [hys] at hnt2
    rw [← wsTokens_dropWhile_ws (c :: s)]
    cases hdd : (c :: s).dropWhile isSpaceJS with
    | nil => exact absurd hdd hne
    | cons e es =>
      rw [wsTokens_cons (by simp) (by rw [← hdd]; exact noLeadWs_dropWhile _)]
      simp

/-- The parse `word then forced whitespace` is exactly `the first token is
that word and something follows it`. -/
theorem wordWs_iff {w : List Char} {k : Nat} (hw : w.all (fun c => !isSpaceJS c) = true)
    (hk : w.length = k) (l : List Char) :
    (w.isPrefixOf l && !((l.drop k).takeWhile isSpaceJS).isEmpty) =
      (decide (l.takeWhile (fun c => !isSpaceJS c) = w) &&
        !(l.dropWhile (fun c => !isSpaceJS c)).isEmpty) := by
  subst hk
  cases hp : w.isPrefixOf l with
  | false =>
    simp only [Bool.false_and]
    cases htok : decide (l.takeWhile (fun c => !isSpaceJS c) = w) with
    | false => simp
    | true =>
      exfalso
      have htok' : l.takeWhile (fun c => !isSpaceJS c) = w := of_decide_eq_true htok
      have : w.isPrefixOf l = true := htok' ▸ takeWhile_isPrefixOf _ l
      rw [hp] at this; exact Bool.false_ne_true this
  | true =>
    obtain ⟨ht, hd⟩ := takeWhile_head_of_isPrefixOf hw hp
    cases hdr : l.drop w.length with
    | nil =>
      rw [hdr] at ht hd
      simp only [List.takeWhile_nil, List.dropWhile_nil, List.append_nil] at ht hd
      simp [ht, hd]
    | cons c s =>
      rw [hdr] at ht hd
      cases hc : isSpaceJS c with
      | false =>
        rw [List.takeWhile_cons, if_pos (by simp [hc])] at ht
        have htok : decide (l.takeWhile (fun c => !isSpaceJS c) = w) = false := by
          apply decide_eq_false
          intro heq
          have hlen := congrArg List.length (ht.symm.trans heq)
          simp only [List.length_append, List.length_cons] at hlen
          omega
        rw [List.takeWhile_cons, if_neg (by simp [hc])]
        simp [htok]
      | true =>
        have ht' : l.takeWhile (fun c => !isSpaceJS c) = w := by
          rw [ht, List.takeWhile_cons, if_neg (by simp [hc]), List.append_nil]
        have hd' : l.dropWhile (fun c => !isSpaceJS c) = c :: s := by
          rw [hd, List.dropWhile_cons, if_neg (by simp [hc])]
        rw [List.takeWhile_cons, if_pos hc]
        simp [ht', hd']

/-- The `venv(\s|$)` head test is exactly `the first token is venv`. -/
theorem uvVenvHead_eq (l : List Char) :
    uvVenvHead l = decide (l.takeWhile (fun c => !isSpaceJS c) = "venv".toList) := by
  unfold uvVenvHead
  cases hp : ("venv".toList).isPrefixOf l with
  | false =>
    simp only [Bool.false_and]
    cases htok : decide (l.takeWhile (fun c => !isSpaceJS c) = "venv".toList) with
    | false => rfl
    | true =>
      exfalso
      have htok' := of_decide_eq_true htok
      have : ("venv".toList).isPrefixOf l = true := htok' ▸ takeWhile_isPrefixOf _ l
      rw [hp] at this; exact Bool.false_ne_true this
  | true =>
    obtain ⟨ht, _⟩ := takeWhile_head_of_isPrefixOf (p := fun c => !isSpaceJS c)
      (w := "venv".toList) (by decide) hp
    cases hdr : l.drop 4 with
    | nil =>
      rw [show ("venv".toList).length = 4 from rfl, hdr] at ht
      simp only [List.takeWhile_nil, List.append_nil] at ht
      simp [ht]
    | cons c s =>
      rw [show ("venv".toList).length = 4 from rfl, hdr] at ht
      cases hc : isSpaceJS c with
      | false =>
        rw [List.takeWhile_cons, if_pos (by simp [hc])] at ht
        have hne2 : l.takeWhile (fun c => !isSpaceJS c) ≠ "venv".toList := by
          intro heq
          have hlen := congrArg List.length (ht.symm.trans heq)
          simp only [List.length_append, List.length_cons] at hlen
          omega
        rw [show (match c :: s with | [] => (true : Bool) | c :: _ => isSpaceJS c) = false from hc]
        simp only [Bool.and_false]
        exact (decide_eq_false hne2).symm
      | true =>
        rw [List.takeWhile_cons, if_neg (by simp [hc])] at ht
        simp only [List.append_nil] at ht
        simp [ht, hc]

/-- A path separator (`[\/\\]` of `VENV_EXECUTABLE_PATTERN`). -/
def sepChar (c : Char) : Bool :=
  c = '/' || c = '\\'

/-- A flag token of the venv-creation grammar: a dash followed by one or
more word-or-dot characters and nothing else. -/
def dashFlagTok (t : List Char) : Bool :=
  match t with
  | a :: q => decide (a = '-') && (!q.isEmpty && q.all isWordDotJS)
  | [] => false

/-- The flag/`-m venv` tail of the venv-creation grammar over a token list:
any number of flag tokens, then the exact tokens `-m` and `venv`, then at
least one more token (the environment name). -/
def venvTailToks : List (List Char) → Bool
  | [] => false
  | t1 :: rest =>
    (decide (t1 = "-m".toList) &&
      (match rest with
       | t2 :: rest2 => decide (t2 = "venv".toList) && !rest2.isEmpty
       | [] => false)) ||
    (dashFlagTok t1 && venvTailToks rest)

/-- Modelled from the claim, amended: a package-manager invocation — the
first token is `npm`/`pnpm`/`yarn`/`bun` and some later token *begins with*
one of the safe verbs (the code's regex has no trailing word boundary). -/
def specBuildAmended (n : List Char) : Bool :=
  match wsTokens n with
  | t0 :: rest => (pmWords.any fun w => decide (t0 = w)) && rest.any startsWithVerb
  | [] => false

/-- Modelled from the claim, amended: a toolchain invocation — the first
token, optionally after a literal `./`, *begins with* one of the listed tool
binaries (again no trailing word boundary in the code's regex). -/
def specToolAmended (n : List Char) : Bool :=
  match wsTokens n with
  | t0 :: _ =>
    (toolWords.any fun w => w.isPrefixOf t0) ||
    (match t0 with
     | '.' :: '/' :: r => toolWords.any fun w => w.isPrefixOf r
     | _ => false)
  | [] => false

/-- Modelled from the claim, amended: the venv-executable-directory shape
(optionally dotted `venv`, a separator, `bin` or `Scripts`, a separator)
occurs at SOME position of the text — the start of the string or just after
a path separator — not necessarily as the executed binary's own path. -/
def specVenvExecAmended (n : List Char) : Bool :=
  (List.range (n.length + 1)).any fun i =>
    (i == 0 || (match n[i - 1]? with
                | some c => sepChar c
                | none => false)) &&
    venvAt (n.drop i)

/-- Modelled from the claim: creation of an isolated environment, token-wise
— `python`/`python3`/`py` with flag tokens then `-m venv` and a name, or
`uv venv`, or `virtualenv` with an argument. -/
def specVenvCreateAmended (n : List Char) : Bool :=
  match wsTokens n with
  | t0 :: rest =>
    ((decide (t0 = "python3".toList) || decide (t0 = "python".toList) ||
        decide (t0 = "py".toList)) && venvTailToks rest) ||
    (decide (t0 = "uv".toList) && (match rest with
       | t1 :: _ => decide (t1 = "venv".toList)
       | [] => false)) ||
    (decide (t0 = "virtualenv".toList) && !rest.isEmpty)
  | [] => false

/-- Modelled from the claim, amended: the allow-grammar the code actually
decides, over the normalized command's token sequence. -/
def specAllowedAmended (c : List Char) : Bool :=
  let n := stripCommandPrefix c
  specBuildAmended n || specToolAmended n || specVenvExecAmended n || specVenvCreateAmended n

/-- Modelled from the claim as written: the same grammar with verbs and tool
names required to be WHOLE tokens of the normalized command. -/
def specAllowedStrict (c : List Char) : Bool :=
  let n := stripCommandPrefix c
  (match wsTokens n with
   | t0 :: rest =>
     (pmWords.any fun w => decide (t0 = w)) &&
       rest.any (fun t => verbWords.any fun v => decide (t = v))
   | [] => false) ||
  (match wsTokens n with
   | t0 :: _ =>
     (toolWords.any fun w => decide (t0 = w)) ||
     (match t0 with
      | '.' :: '/' :: r => toolWords.any fun w => decide (r = w)
      | _ => false)
   | [] => false) ||
  specVenvExecAmended n || specVenvCreateAmended n

example : specBuildAmended ("npm run build".toList) = true := by decide
example : specBuildAmended ("npm circus".toList) = true := by decide
example : specToolAmended ("goat simulator".toList) = true := by decide
example : specVenvCreateAmended ("python -3.11 -m venv env".toList) = true := by decide
example : specVenvCreateAmended ("python -m venv".toList) = false := by decide
example : specVenvExecAmended (".venv/bin/pytest".toList) = true := by decide
example : specVenvExecAmended ("cat ./.venv/bin/x".toList) = true := by decide

/-- The scan of `VENV_EXECUTABLE_PATTERN` is an existential over positions:
the anchor shape holds at some index whose predecessor (if any) is a path
separator. -/
theorem venvScan_spec : ∀ (l : List Char) (ok : Bool),
    venvScan l ok =
      ((ok && venvAt l) ||
        (List.range l.length).any fun j =>
          ((match l[j]? with | some c => sepChar c | none => false) &&
            venvAt (l.drop (j + 1)))) := by
  intro l
  induction l with
  | nil => intro ok; simp [venvScan]
  | cons c t ih =>
    intro ok
    conv_lhs => unfold venvScan
    simp only []
    rw [ih (decide (c = '/') || decide (c = '\\'))]
    rw [List.length_cons, List.range_succ_eq_map]
    simp only [List.any_cons, List.any_map, Function.comp, Nat.succ_eq_add_one,
      List.getElem?_cons_zero, List.getElem?_cons_succ, List.drop_succ_cons,
      List.drop_zero, Nat.zero_add, sepChar]
    congr 1
    congr 1
    apply any_congr'
    intro j hj
    simp [Function.comp, Nat.succ_eq_add_one]

theorem specVenvExec_eq (n : List Char) : isVenvExecutable n = specVenvExecAmended n := by
  have h := venvScan_spec n true
  unfold isVenvExecutable specVenvExecAmended
  rw [h, List.range_succ_eq_map]
  simp only [List.any_cons, List.any_map, Function.comp]
  refine congrArg₂ (fun a b => a || b) ?_ ?_
  · simp
  · apply any_congr'
    intro j hj
    simp [Function.comp, Nat.succ_eq_add_one]

/-- The boundary walk of `BUILD_COMMAND_PATTERN`'s tail is the token-wise
search for a token beginning with a safe verb. -/
theorem buildTailF_tokens : ∀ (f : Nat) (l : List Char), l.length < f → noLeadWs l = true →
    buildTailF f l = (wsTokens l).any startsWithVerb := by
  intro f
  induction f with
  | zero => intro l h _; exact absurd h (Nat.not_lt_zero _)
  | succ g ih =>
    intro l hlen hnl
    cases l with
    | nil =>
      simp only [buildTailF]
      rw [show wsTokens ([] : List Char) = [] from rfl]
      simp [show startsWithVerb [] = false from by decide]
    | cons a t =>
      have ha : isSpaceJS a = false := noLeadWs_head hnl a (by simp)
      rw [wsTokens_cons (List.cons_ne_nil a t) hnl]
      simp only [buildTailF, List.any_cons]
      rw [startsWithVerb_takeWhile (a :: t)]
      congr 1
      rw [List.takeWhile_cons, if_pos (by simp [ha])]
      simp only [List.isEmpty_cons, Bool.not_false, Bool.true_and]
      have hDeq : (a :: t).dropWhile (fun c => !isSpaceJS c) =
          t.dropWhile (fun c => !isSpaceJS c) := by
        rw [List.dropWhile_cons, if_pos (by simp [ha])]
      cases hD : (a :: t).dropWhile (fun c => !isSpaceJS c) with
      | nil => simp [wsTokens, wsTokensF]
      | cons d s =>
        have hd : isSpaceJS d = true := by
          have := head?_dropWhile_false (fun c => !isSpaceJS c) (a :: t) d (by simp [hD])
          simpa using this
        rw [← wsTokens_dropWhile_ws (d :: s)]
        rw [List.takeWhile_cons, if_pos hd]
        simp only [List.isEmpty_cons, Bool.not_false, Bool.true_and]
        have hlenD : t.dropWhile (fun c => !isSpaceJS c) = d :: s := hDeq.symm.trans hD
        have hlenD' : (d :: s).length ≤ t.length := by
          rw [← hlenD]; exact length_dropWhile_le' _ t
        have hlenR : ((d :: s).dropWhile isSpaceJS).length ≤ s.length := by
          rw [List.dropWhile_cons, if_pos hd]
          exact length_dropWhile_le' isSpaceJS s
        apply ih
        · simp only [List.length_cons] at hlen hlenD'
          omega
        · exact noLeadWs_dropWhile _

/-- One package-manager alternative of `BUILD_COMMAND_PATTERN`: the word,
forced whitespace, then the boundary walk — token-wise, the first token is
exactly the word and some later token begins with a safe verb. -/
theorem pmClause_iff {w : List Char} {k : Nat} (hw : w.all (fun c => !isSpaceJS c) = true)
    (hk : w.length = k) (n : List Char) :
    (w.isPrefixOf n && (!((n.drop k).takeWhile isSpaceJS).isEmpty &&
        buildTailF (n.length + 1) ((n.drop k).dropWhile isSpaceJS))) =
      (decide (n.takeWhile (fun c => !isSpaceJS c) = w) &&
        (wsTokens (n.dropWhile (fun c => !isSpaceJS c))).any startsWithVerb) := by
  subst hk
  cases hp : w.isPrefixOf n with
  | false =>
    simp only [Bool.false_and]
    cases htok : decide (n.takeWhile (fun c => !isSpaceJS c) = w) with
    | false => simp
    | true =>
      exfalso
      have htok' := of_decide_eq_true htok
      have h2 : w.isPrefixOf n = true := htok' ▸ takeWhile_isPrefixOf _ n
      rw [hp] at h2; exact Bool.false_ne_true h2
  | true =>
    obtain ⟨ht, hd⟩ := takeWhile_head_of_isPrefixOf hw hp
    cases hdr : n.drop w.length with
    | nil =>
      rw [hdr] at ht hd
      simp only [List.takeWhile_nil, List.dropWhile_nil, List.append_nil] at ht hd
      simp [ht, hd, wsTokens, wsTokensF]
    | cons c s =>
      rw [hdr] at ht hd
      cases hc : isSpaceJS c with
      | false =>
        rw [List.takeWhile_cons, if_pos (by simp [hc])] at ht
        have hne2 : n.takeWhile (fun c => !isSpaceJS c) ≠ w := by
          intro heq
          have hlen := congrArg List.length (ht.symm.trans heq)
          simp only [List.length_append, List.length_cons] at hlen
          omega
        rw [List.takeWhile_cons, if_neg (by simp [hc])]
        simp [hne2]
      | true =>
        have ht' : n.takeWhile (fun c => !isSpaceJS c) = w := by
          rw [ht, List.takeWhile_cons, if_neg (by simp [hc]), List.append_nil]
        have hd' : n.dropWhile (fun c => !isSpaceJS c) = c :: s := by
          rw [hd, List.dropWhile_cons, if_neg (by simp [hc])]
        rw [List.takeWhile_cons, if_pos hc]
        simp only [List.isEmpty_cons, Bool.not_false, Bool.true_and, ht', hd']
        rw [← wsTokens_dropWhile_ws (c :: s)]
        have hlen1 : (c :: s).length ≤ n.length := by
          have h2 := congrArg List.length hdr
          simp only [List.length_drop] at h2
          omega
        have hlen2 : ((c :: s).dropWhile isSpaceJS).length ≤ s.length := by
          rw [List.dropWhile_cons, if_pos hc]
          exact length_dropWhile_le' isSpaceJS s
        rw [buildTailF_tokens (n.length + 1) ((c :: s).dropWhile isSpaceJS)
          (by simp only [List.length_cons] at hlen1; omega) (noLeadWs_dropWhile _)]
        simp

/-- `BUILD_COMMAND_PATTERN.test` over a string with no leading whitespace,
read token-wise. -/
theorem buildTest_tokens {n : List Char} (hnl : noLeadWs n = true) :
    buildTest n = specBuildAmended n := by
  cases n with
  | nil => decide
  | cons a t =>
    unfold buildTest specBuildAmended
    rw [wsTokens_cons (List.cons_ne_nil a t) hnl]
    simp only [pmWords, List.any_cons, List.any_nil]
    rw [pmClause_iff (w := "npm".toList) (by decide) rfl (a :: t),
        pmClause_iff (w := "pnpm".toList) (by decide) rfl (a :: t),
        pmClause_iff (w := "yarn".toList) (by decide) rfl (a :: t),
        pmClause_iff (w := "bun".toList) (by decide) rfl (a :: t)]
    cases hB : (wsTokens ((a :: t).dropWhile (fun c => !isSpaceJS c))).any startsWithVerb <;>
      simp

/-- The optional `./` arm of `TOOL_COMMAND_PATTERN`, match-free form. -/
theorem toolDotMatch (l : List Char) :
    (match l with
     | '.' :: '/' :: r => toolWords.any fun w => w.isPrefixOf r
     | _ => false) =
      (("./".toList).isPrefixOf l && toolWords.any fun w => w.isPrefixOf (l.drop 2)) := by
  split
  · rename_i r
    simp [List.isPrefixOf]
  · rename_i hno
    cases hp : ("./".toList).isPrefixOf l with
    | false => simp
    | true =>
      exfalso
      have hdec := append_drop_of_isPrefixOf hp
      exact hno (l.drop 2) (by rw [← hdec]; rfl)

/-- `TOOL_COMMAND_PATTERN.test` over a string with no leading whitespace,
read token-wise. -/
theorem toolTest_tokens {n : List Char} (hnl : noLeadWs n = true) :
    toolTest n = specToolAmended n := by
  cases n with
  | nil => decide
  | cons a t =>
    unfold toolTest specToolAmended
    rw [wsTokens_cons (List.cons_ne_nil a t) hnl]
    simp only []
    congr 1
    · exact any_isPrefixOf_takeWhile (by decide)
    · rw [toolDotMatch (a :: t),
        toolDotMatch ((a :: t).takeWhile (fun c => !isSpaceJS c))]
      cases hp : ("./".toList).isPrefixOf (a :: t) with
      | false =>
        have hp2 : ("./".toList).isPrefixOf
            ((a :: t).takeWhile (fun c => !isSpaceJS c)) = false := by
          rw [← isPrefixOf_takeWhile (p := fun c => !isSpaceJS c)
            (w := "./".toList) (l := a :: t) (by decide)]
          exact hp
        rw [hp2]
        simp
      | true =>
        obtain ⟨ht, _⟩ := takeWhile_head_of_isPrefixOf (p := fun c => !isSpaceJS c)
          (w := "./".toList) (by decide) hp
        have hp2 : ("./".toList).isPrefixOf
            ((a :: t).takeWhile (fun c => !isSpaceJS c)) = true := by
          rw [← isPrefixOf_takeWhile (p := fun c => !isSpaceJS c)
            (w := "./".toList) (l := a :: t) (by decide)]
          exact hp
        rw [hp2]
        simp only [Bool.true_and]
        have htok2 : ((a :: t).takeWhile (fun c => !isSpaceJS c)).drop 2 =
            ((a :: t).drop 2).takeWhile (fun c => !isSpaceJS c) := by
          rw [ht]
          rfl
        rw [htok2]
        exact any_isPrefixOf_takeWhile (by decide)

theorem wordDot_not_space {c : Char} (h : isWordDotJS c = true) : isSpaceJS c = false := by
  cases hs : isSpaceJS c with
  | false => rfl
  | true => rw [space_not_wordDot hs] at h; exact absurd h (by simp)

/-- The `venv\s+` inner parse of `mVenvHead`, token-wise (needs the
no-trailing-whitespace invariant: forced whitespace after `venv` means a
further token exists). -/
theorem venvWordMatch {m : List Char} (hnl : noLeadWs m = true) (hnt : noTrailWs m = true) :
    (("venv".toList).isPrefixOf m && !((m.drop 4).takeWhile isSpaceJS).isEmpty) =
      (match wsTokens m with
       | t2 :: rest2 => decide (t2 = "venv".toList) && !rest2.isEmpty
       | [] => false) := by
  cases m with
  | nil => decide
  | cons a t =>
    rw [wsTokens_cons (List.cons_ne_nil a t) hnl]
    simp only []
    rw [wordWs_iff (w := "venv".toList) (k := 4) (by decide) rfl (a :: t)]
    rw [rest_tokens_isEmpty hnt]

/-- `mVenvHead` over a trimmed suffix, token-wise: the first token is `-m`,
the second is `venv`, and a third token follows. -/
theorem mVenvHead_tokens {l : List Char} (hnl : noLeadWs l = true) (hnt : noTrailWs l = true) :
    mVenvHead l =
      (decide (l.takeWhile (fun c => !isSpaceJS c) = "-m".toList) &&
       (match wsTokens (l.dropWhile (fun c => !isSpaceJS c)) with
        | t2 :: rest2 => decide (t2 = "venv".toList) && !rest2.isEmpty
        | [] => false)) := by
  unfold mVenvHead
  simp only []
  cases hp : ("-m".toList).isPrefixOf l with
  | false =>
    simp only [Bool.false_and]
    cases htok : decide (l.takeWhile (fun c => !isSpaceJS c) = "-m".toList) with
    | false => simp
    | true =>
      exfalso
      have htok' := of_decide_eq_true htok
      have h2 : ("-m".toList).isPrefixOf l = true := htok' ▸ takeWhile_isPrefixOf _ l
      rw [hp] at h2; exact Bool.false_ne_true h2
  | true =>
    obtain ⟨ht, hd⟩ := takeWhile_head_of_isPrefixOf (p := fun c => !isSpaceJS c)
      (w := "-m".toList) (by decide) hp
    cases hdr : l.drop 2 with
    | nil =>
      rw [show ("-m".toList).length = 2 from rfl, hdr] at ht hd
      simp only [List.takeWhile_nil, List.dropWhile_nil, List.append_nil] at ht hd
      rw [hd]
      simp [ht, wsTokens, wsTokensF]
    | cons c s =>
      rw [show ("-m".toList).length = 2 from rfl, hdr] at ht hd
      cases hc : isSpaceJS c with
      | false =>
        rw [List.takeWhile_cons, if_pos (by simp [hc])] at ht
        have hne2 : l.takeWhile (fun c => !isSpaceJS c) ≠ "-m".toList := by
          intro heq
          have hlen := congrArg List.length (ht.symm.trans heq)
          simp only [List.length_append, List.length_cons] at hlen
          omega
        rw [List.takeWhile_cons, if_neg (by simp [hc])]
        rw [decide_eq_false hne2, Bool.false_and]
        simp
      | true =>
        have ht' : l.takeWhile (fun c => !isSpaceJS c) = "-m".toList := by
          rw [ht, List.takeWhile_cons, if_neg (by simp [hc]), List.append_nil]
        have hd' : l.dropWhile (fun c => !isSpaceJS c) = c :: s := by
          rw [hd, List.dropWhile_cons, if_neg (by simp [hc])]
        rw [List.takeWhile_cons, if_pos hc]
        simp only [List.isEmpty_cons, Bool.not_false, Bool.true_and, ht', hd']
        rw [← wsTokens_dropWhile_ws (c :: s)]
        have hsuf1 : (c :: s) <:+ l := hd' ▸ List.dropWhile_suffix _
        have hnt2 : noTrailWs ((c :: s).dropWhile isSpaceJS) = true :=
          noTrailWs_suffix ((List.dropWhile_suffix _).trans hsuf1) hnt
        rw [venvWordMatch (noLeadWs_dropWhile _) hnt2]
        simp

theorem drop_length_takeWhile (p : Char → Bool) (l : List Char) :
    l.drop (l.takeWhile p).length = l.dropWhile p := by
  have h := List.takeWhile_append_dropWhile p l
  calc l.drop (l.takeWhile p).length
      = (l.takeWhile p ++ l.dropWhile p).drop (l.takeWhile p).length := by rw [h]
    _ = l.dropWhile p := List.drop_left _ _

/-- The flag/`-m venv` boundary walk of `VENV_CREATION_PATTERN` is the
token-wise grammar `flag* -m venv name` over the whitespace tokens. -/
theorem venvTailF_tokens : ∀ (f : Nat) (l : List Char), l.length < f → noLeadWs l = true →
    noTrailWs l = true → venvTailF f l = venvTailToks (wsTokens l) := by
  intro f
  induction f with
  | zero => intro l h _ _; exact absurd h (Nat.not_lt_zero _)
  | succ g ih =>
    intro l hlen hnl hnt
    cases l with
    | nil =>
      rw [show wsTokens ([] : List Char) = [] from rfl]
      simp [venvTailF, venvTailToks, show mVenvHead [] = false from by decide]
    | cons a t =>
      rw [wsTokens_cons (List.cons_ne_nil a t) hnl]
      simp only [venvTailF, venvTailToks]
      congr 1
      · exact mVenvHead_tokens hnl hnt
      · split
        · rename_i r heq
          obtain ⟨rfl, rfl⟩ : a = '-' ∧ t = r := by simpa using heq
          rw [List.takeWhile_cons, if_pos (by decide), List.dropWhile_cons,
            if_pos (by decide)]
          simp only [dashFlagTok, decide_True, Bool.true_and]
          cases hq : t.takeWhile isWordDotJS with
          | nil =>
            simp only [List.isEmpty_nil, Bool.not_true, Bool.false_and]
            cases t with
            | nil => simp
            | cons b u =>
              have hb : isWordDotJS b = false := by
                cases hwb : isWordDotJS b with
                | false => rfl
                | true => rw [List.takeWhile_cons, if_pos hwb] at hq; simp at hq
              cases hbs : isSpaceJS b with
              | true =>
                rw [List.takeWhile_cons, if_neg (by simp [hbs])]
                simp
              | false =>
                rw [List.takeWhile_cons, if_pos (by simp [hbs])]
                simp [hb]
          | cons w1 ws1 =>
            have htw : t.takeWhile isWordDotJS = w1 :: ws1 := hq
            have hallWD : (t.takeWhile isWordDotJS).all isWordDotJS = true :=
              List.all_takeWhile
            have hallw : (w1 :: ws1).all isWordDotJS = true := by
              rw [← htw]; exact hallWD
            have hallNS : (t.takeWhile isWordDotJS).all (fun c => !isSpaceJS c) = true := by
              rw [List.all_eq_true] at hallWD ⊢
              intro x hx
              simp [wordDot_not_space (hallWD x hx)]
            have hpre : (t.takeWhile isWordDotJS).isPrefixOf t = true :=
              takeWhile_isPrefixOf isWordDotJS t
            obtain ⟨ht2, hd2⟩ := takeWhile_head_of_isPrefixOf hallNS hpre
            have hdec : t.takeWhile isWordDotJS ++ t.dropWhile isWordDotJS = t :=
              List.takeWhile_append_dropWhile isWordDotJS t
            have hdrop : t.drop (t.takeWhile isWordDotJS).length = t.dropWhile isWordDotJS :=
              drop_length_takeWhile isWordDotJS t
            rw [hdrop] at ht2 hd2
            simp only [htw, List.isEmpty_cons, Bool.not_false, Bool.true_and]
            cases hr1 : t.dropWhile isWordDotJS with
            | nil =>
              rw [hr1] at ht2 hd2
              simp only [List.takeWhile_nil, List.dropWhile_nil, List.append_nil] at ht2 hd2
              rw [ht2, hd2, htw]
              simp [wsTokens, wsTokensF, venvTailToks, hallw]
            | cons d s =>
              rw [hr1] at ht2 hd2
              have hdw : isWordDotJS d = false :=
                head?_dropWhile_false isWordDotJS t d (by simp [hr1])
              cases hds : isSpaceJS d with
              | false =>
                rw [List.takeWhile_cons, if_pos (by simp [hds])] at ht2
                rw [ht2]
                rw [List.takeWhile_cons, if_neg (by simp [hds])]
                simp [hdw]
              | true =>
                rw [List.takeWhile_cons, if_neg (by simp [hds]), List.append_nil] at ht2
                rw [List.dropWhile_cons, if_neg (by simp [hds])] at hd2
                rw [List.takeWhile_cons, if_pos hds]
                simp only [List.isEmpty_cons, Bool.not_false, Bool.true_and]
                rw [ht2, hd2, htw, hallw]
                rw [← wsTokens_dropWhile_ws (d :: s)]
                have hsuf1 : (d :: s) <:+ t := hr1 ▸ List.dropWhile_suffix _
                have hsuf2 : (d :: s) <:+ '-' :: t := hsuf1.trans ⟨['-'], rfl⟩
                have hnt2 : noTrailWs ((d :: s).dropWhile isSpaceJS) = true :=
                  noTrailWs_suffix ((List.dropWhile_suffix _).trans hsuf2) hnt
                have hlen1 : (w1 :: ws1).length + (d :: s).length = t.length := by
                  have h3 := congrArg List.length hdec
                  rw [htw, hr1] at h3
                  simp only [List.length_append] at h3
                  omega
                have hlen2 : ((d :: s).dropWhile isSpaceJS).length ≤ s.length := by
                  rw [List.dropWhile_cons, if_pos hds]
                  exact length_dropWhile_le' isSpaceJS s
                rw [ih ((d :: s).dropWhile isSpaceJS)
                  (by simp only [List.length_cons] at hlen hlen1 ⊢; omega)
                  (noLeadWs_dropWhile _) hnt2]
                simp
        · rename_i hno
          have ha : isSpaceJS a = false := noLeadWs_head hnl a (by simp)
          rw [List.takeWhile_cons, if_pos (by simp [ha])]
          have han : a ≠ '-' := by
            intro hcontra
            subst hcontra
            exact hno t rfl
          simp [dashFlagTok, han]

/-- One interpreter alternative of `VENV_CREATION_PATTERN`: the word, forced
whitespace, then the flag walk — token-wise, the first token is exactly the
word and the remaining tokens match the flag grammar. -/
theorem interpClause_iff {w : List Char} {k : Nat} (hw : w.all (fun c => !isSpaceJS c) = true)
    (hk : w.length = k) {n : List Char} (hnt : noTrailWs n = true) :
    (w.isPrefixOf n && (!((n.drop k).takeWhile isSpaceJS).isEmpty &&
        venvTailF (n.length + 1) ((n.drop k).dropWhile isSpaceJS))) =
      (decide (n.takeWhile (fun c => !isSpaceJS c) = w) &&
        venvTailToks (wsTokens (n.dropWhile (fun c => !isSpaceJS c)))) := by
  subst hk
  cases hp : w.isPrefixOf n with
  | false =>
    simp only [Bool.false_and]
    cases htok : decide (n.takeWhile (fun c => !isSpaceJS c) = w) with
    | false => simp
    | true =>
      exfalso
      have htok' := of_decide_eq_true htok
      have h2 : w.isPrefixOf n = true := htok' ▸ takeWhile_isPrefixOf _ n
      rw [hp] at h2; exact Bool.false_ne_true h2
  | true =>
    obtain ⟨ht, hd⟩ := takeWhile_head_of_isPrefixOf hw hp
    cases hdr : n.drop w.length with
    | nil =>
      rw [hdr] at ht hd
      simp only [List.takeWhile_nil, List.dropWhile_nil, List.append_nil] at ht hd
      simp [ht, hd, wsTokens, wsTokensF, venvTailToks]
    | cons c s =>
      rw [hdr] at ht hd
      cases hc : isSpaceJS c with
      | false =>
        rw [List.takeWhile_cons, if_pos (by simp [hc])] at ht
        have hne2 : n.takeWhile (fun c => !isSpaceJS c) ≠ w := by
          intro heq
          have hlen := congrArg List.length (ht.symm.trans heq)
          simp only [List.length_append, List.length_cons] at hlen
          omega
        rw [List.takeWhile_cons, if_neg (by simp [hc])]
        rw [decide_eq_false hne2, Bool.false_and]
        simp
      | true =>
        have ht' : n.takeWhile (fun c => !isSpaceJS c) = w := by
          rw [ht, List.takeWhile_cons, if_neg (by simp [hc]), List.append_nil]
        have hd' : n.dropWhile (fun c => !isSpaceJS c) = c :: s := by
          rw [hd, List.dropWhile_cons, if_neg (by simp [hc])]
        rw [List.takeWhile_cons, if_pos hc]
        simp only [List.isEmpty_cons, Bool.not_false, Bool.true_and, ht', hd']
        rw [← wsTokens_dropWhile_ws (c :: s)]
        have hlen1 : (c :: s).length ≤ n.length := by
          have h2 := congrArg List.length hdr
          simp only [List.length_drop] at h2
          omega
        have hlen2 : ((c :: s).dropWhile isSpaceJS).length ≤ s.length := by
          rw [List.dropWhile_cons, if_pos hc]
          exact length_dropWhile_le' isSpaceJS s
        have hsuf1 : (c :: s) <:+ n := hdr ▸ List.drop_suffix _ _
        have hnt2 : noTrailWs ((c :: s).dropWhile isSpaceJS) = true :=
          noTrailWs_suffix ((List.dropWhile_suffix _).trans hsuf1) hnt
        rw [venvTailF_tokens (n.length + 1) ((c :: s).dropWhile isSpaceJS)
          (by simp only [List.length_cons] at hlen1; omega) (noLeadWs_dropWhile _) hnt2]
        simp

/-- The `uv venv` alternative, token-wise: first token `uv`, second `venv`. -/
theorem uvClause_iff (n : List Char) :
    (("uv".toList).isPrefixOf n && (!((n.drop 2).takeWhile isSpaceJS).isEmpty &&
        uvVenvHead ((n.drop 2).dropWhile isSpaceJS))) =
      (decide (n.takeWhile (fun c => !isSpaceJS c) = "uv".toList) &&
        (match wsTokens (n.dropWhile (fun c => !isSpaceJS c)) with
         | t1 :: _ => decide (t1 = "venv".toList)
         | [] => false)) := by
  cases hp : ("uv".toList).isPrefixOf n with
  | false =>
    simp only [Bool.false_and]
    cases htok : decide (n.takeWhile (fun c => !isSpaceJS c) = "uv".toList) with
    | false => simp
    | true =>
      exfalso
      have htok' := of_decide_eq_true htok
      have h2 : ("uv".toList).isPrefixOf n = true := htok' ▸ takeWhile_isPrefixOf _ n
      rw [hp] at h2; exact Bool.false_ne_true h2
  | true =>
    obtain ⟨ht, hd⟩ := takeWhile_head_of_isPrefixOf (p := fun c => !isSpaceJS c)
      (w := "uv".toList) (by decide) hp
    cases hdr : n.drop 2 with
    | nil =>
      rw [show ("uv".toList).length = 2 from rfl, hdr] at ht hd
      simp only [List.takeWhile_nil, List.dropWhile_nil, List.append_nil] at ht hd
      rw [hd]
      simp [ht, wsTokens, wsTokensF]
    | cons c s =>
      rw [show ("uv".toList).length = 2 from rfl, hdr] at ht hd
      cases hc : isSpaceJS c with
      | false =>
        rw [List.takeWhile_cons, if_pos (by simp [hc])] at ht
        have hne2 : n.takeWhile (fun c => !isSpaceJS c) ≠ "uv".toList := by
          intro heq
          have hlen := congrArg List.length (ht.symm.trans heq)
          simp only [List.length_append, List.length_cons] at hlen
          omega
        rw [List.takeWhile_cons, if_neg (by simp [hc])]
        rw [decide_eq_false hne2, Bool.false_and]
        simp
      | true =>
        have ht' : n.takeWhile (fun c => !isSpaceJS c) = "uv".toList := by
          rw [ht, List.takeWhile_cons, if_neg (by simp [hc]), List.append_nil]
        have hd' : n.dropWhile (fun c => !isSpaceJS c) = c :: s := by
          rw [hd, List.dropWhile_cons, if_neg (by simp [hc])]
        rw [List.takeWhile_cons, if_pos hc]
        simp only [List.isEmpty_cons, Bool.not_false, Bool.true_and, ht', hd']
        rw [← wsTokens_dropWhile_ws (c :: s)]
        rw [uvVenvHead_eq]
        cases hrest : (c :: s).dropWhile isSpaceJS with
        | nil => simp [wsTokens, wsTokensF]
        | cons e es =>
          rw [wsTokens_cons (List.cons_ne_nil e es) (by rw [← hrest]; exact noLeadWs_dropWhile _)]
          simp

/-- The `virtualenv` alternative, token-wise: first token `virtualenv` and a
further token follows. -/
theorem virtualenvClause_iff {n : List Char} (hnt : noTrailWs n = true) :
    (("virtualenv".toList).isPrefixOf n && !((n.drop 10).takeWhile isSpaceJS).isEmpty) =
      (decide (n.takeWhile (fun c => !isSpaceJS c) = "virtualenv".toList) &&
        !(wsTokens (n.dropWhile (fun c => !isSpaceJS c))).isEmpty) := by
  rw [wordWs_iff (w := "virtualenv".toList) (k := 10) (by decide) rfl n,
      rest_tokens_isEmpty hnt]

/-- `isVenvCreationCommand` on a trimmed string, token-wise. -/
theorem isVenvCreation_tokens {n : List Char} (hnl : noLeadWs n = true)
    (hnt : noTrailWs n = true) :
    isVenvCreationCommand n = specVenvCreateAmended n := by
  cases n with
  | nil => decide
  | cons a t =>
    unfold isVenvCreationCommand specVenvCreateAmended
    rw [trimJS_eq_self hnl hnt]
    rw [wsTokens_cons (List.cons_ne_nil a t) hnl]
    simp only [List.any_cons, List.any_nil]
    rw [interpClause_iff (w := "python3".toList) (by decide) rfl hnt,
        interpClause_iff (w := "python".toList) (by decide) rfl hnt,
        interpClause_iff (w := "py".toList) (by decide) rfl hnt,
        uvClause_iff (a :: t),
        virtualenvClause_iff hnt]
    cases hT : venvTailToks (wsTokens ((a :: t).dropWhile (fun c => !isSpaceJS c))) <;>
      simp [Bool.or_assoc, Bool.and_or_distrib_right]

/-- `isBuildCommand` on a trimmed string, token-wise. -/
theorem isBuildCommand_tokens {n : List Char} (hnl : noLeadWs n = true)
    (hnt : noTrailWs n = true) :
    isBuildCommand n = (specBuildAmended n || specToolAmended n) := by
  unfold isBuildCommand
  rw [trimJS_eq_self hnl hnt, buildTest_tokens hnl, toolTest_tokens hnl]

example : isAllowedCommand ("cat ./.venv/bin/x".toList) = true := by decide
example : specAllowedAmended ("npm circus".toList) = true := by decide
example : specAllowedStrict ("npm run build".toList) = true := by decide
example : specAllowedStrict ("uv venv".toList) = true := by decide

/-- C4, counterexample: the claim reads the allow-grammar over whole tokens
(package manager plus a safe VERB, or a listed tool BINARY), but the code's
regexes have no trailing word boundary, so `npm circus` — whose second token
merely begins with the verb `ci` and is no safe verb — still classifies as
allowed, while the claim's token-exact grammar (`specAllowedStrict`) rejects
it. -/
theorem c4_counterexample :
    isAllowedCommand ("npm circus".toList) = true ∧
      specAllowedStrict ("npm circus".toList) = false := by
  decide

/-- C4, amended: `isAllowedCommand` decides exactly the token-wise grammar
`specAllowedAmended` over the normalized command: the first token is a
package manager and some later token BEGINS WITH a safe verb; or the first
token (optionally after a literal `./`) BEGINS WITH a listed tool binary; or
the venv-executable directory shape occurs anywhere in the text at the start
or just after a path separator; or the text matches the venv-creation
grammar token-exactly. -/
theorem c4_theorem (c : List Char) :
    isAllowedCommand c = specAllowedAmended c := by
  have hnl : noLeadWs (stripCommandPrefix c) = true := by
    have h := noLeadWs_trimJS (stripCommandPrefix c)
    rwa [trimJS_stripCommandPrefix] at h
  have hnt : noTrailWs (stripCommandPrefix c) = true := by
    have h := noTrailWs_trimJS (stripCommandPrefix c)
    rwa [trimJS_stripCommandPrefix] at h
  unfold isAllowedCommand specAllowedAmended
  simp only []
  rw [isBuildCommand_tokens hnl hnt, specVenvExec_eq, isVenvCreation_tokens hnl hnt]
